import Mathlib

/-!
# mqtt-benchmark: the statistics aggregator `calculateTotalResults`

A shallow embedding of `main.go`.

* `int64` fields are integers, every `+=` wraps modulo `2^64` (`add64`).
* `float64` values are modelled by `F64`: NaN, the two infinities, and the finite
  values.  Every finite binary64 number is an integer multiple of the smallest
  subnormal `2^-1074`, so a finite value is stored as that integer multiple.
  Arithmetic is exact arithmetic followed by IEEE-754 round-to-nearest, ties-to-even,
  to 53 significant bits, with overflow to an infinity from `2^1024` on.
  The two zeros `+0` and `-0` are identified: Go's comparison operators do not
  distinguish them, and no divisor of this program can be `-0`.
  `F64.fin k` is allowed for every integer `k`, so the statements below quantify over
  a superset of the binary64 numbers.
* Inside `calculateTotalResults` the slice `[]*RunResults` is a list of records (its
  pointers are dereferenced at the call, `calculateTotalResultsPtr`).  A run-time panic
  is `none`: indexing the empty list at `0`, or an indexed write out of range.
* `stats.StatsMean` and `stats.StatsSampleStandardDeviation` come from the external
  package GoStats.  The mean is modelled as sum divided by length; the standard
  deviation is not used by any statement and is a parameter `stdDev`.
* `main` is reduced to its skeleton: the argument check, the spawn count, the
  collection loop (a receive may block for ever or deliver a nil pointer), and the
  call of `calculateTotalResults` on the collected slice of pointers.
-/

namespace MqttBench

/-! ## int64 -/

/-- Two's-complement reduction of an integer into the `int64` range. -/
def wrapInt64 (x : Int) : Int := (x + 2 ^ 63) % 2 ^ 64 - 2 ^ 63

/-- Go's `a + b` on `int64`. -/
def add64 (a b : Int) : Int := wrapInt64 (a + b)

/-! ## float64 -/

/-- A `float64`: `fin k` is the finite number `k * 2^-1074`. -/
inductive F64 where
  | nan
  | ninf
  | fin (k : Int)
  | pinf
  deriving DecidableEq, Repr

/-- Number of binary digits of `n`, computed with fuel `f` (enough when `n ≤ f`). -/
def bitLenAux : Nat → Nat → Nat
  | 0, _ => 0
  | f + 1, n => if n = 0 then 0 else bitLenAux f (n / 2) + 1

/-- Number of binary digits of `n` (`0` for `0`). -/
def bitLen (n : Nat) : Nat := bitLenAux n n

/-- The integer nearest to `p / q`, a tie going to the even neighbour. -/
def roundHalfEven (p q : Nat) : Nat :=
  if 2 * (p % q) < q then p / q
  else if q < 2 * (p % q) then p / q + 1
  else if (p / q) % 2 = 0 then p / q
  else p / q + 1

/-- The shift that leaves at most 53 significant bits of `⌊p / q⌋`. -/
def roundShift (p q : Nat) : Nat := bitLen (p / q) - 53

/-- Round the non-negative rational `p / q` (counted in units of `2^-1074`) to the
nearest number with at most 53 significant bits, ties to even. -/
def roundMag (p q : Nat) : Nat :=
  roundHalfEven p (q * 2 ^ roundShift p q) * 2 ^ roundShift p q

/-- First magnitude (in units of `2^-1074`) that no longer is finite: `2^1024`. -/
@[irreducible] def overflowMag : Nat := 2 ^ 2098

/-- IEEE-754 rounding of the rational `n / d` units (`d > 0`) to a `float64`. -/
def F64.round (n : Int) (d : Nat) : F64 :=
  if overflowMag ≤ roundMag n.natAbs d then (if n < 0 then F64.ninf else F64.pinf)
  else if n < 0 then F64.fin (-(roundMag n.natAbs d : Int))
  else F64.fin (roundMag n.natAbs d)

/-- The number of units `2^-1074` in `1.0`. -/
@[irreducible] def unitsPerOne : Nat := 2 ^ 1074

/-- Go's conversion `float64(n)` of an integer. -/
def F64.ofInt64 (n : Int) : F64 := F64.round (n * unitsPerOne) 1

/-- The `float64` zero value. -/
def F64.zero : F64 := F64.fin 0

/-- Go's `math.IsNaN`. -/
def F64.isNaN : F64 → Bool
  | F64.nan => true
  | _ => false

/-- Go's `a < b` on `float64`: false as soon as one side is NaN. -/
def F64.lt : F64 → F64 → Bool
  | F64.nan, _ => false
  | _, F64.nan => false
  | _, F64.ninf => false
  | F64.ninf, _ => true
  | F64.pinf, _ => false
  | F64.fin _, F64.pinf => true
  | F64.fin a, F64.fin b => decide (a < b)

/-- Go's `a > b` on `float64`. -/
def F64.gt (a b : F64) : Bool := F64.lt b a

/-- Go's `a <= b` on `float64`: false as soon as one side is NaN. -/
def F64.le : F64 → F64 → Bool
  | F64.nan, _ => false
  | _, F64.nan => false
  | F64.ninf, _ => true
  | _, F64.pinf => true
  | F64.pinf, _ => false
  | F64.fin _, F64.ninf => false
  | F64.fin a, F64.fin b => decide (a ≤ b)

/-- Go's `a + b` on `float64`. -/
def F64.add : F64 → F64 → F64
  | F64.nan, _ => F64.nan
  | _, F64.nan => F64.nan
  | F64.pinf, F64.ninf => F64.nan
  | F64.ninf, F64.pinf => F64.nan
  | F64.pinf, _ => F64.pinf
  | _, F64.pinf => F64.pinf
  | F64.ninf, _ => F64.ninf
  | _, F64.ninf => F64.ninf
  | F64.fin a, F64.fin b => F64.round (a + b) 1

/-- Go's `a / b` on `float64` (a zero divisor is `+0`). -/
def F64.div : F64 → F64 → F64
  | F64.nan, _ => F64.nan
  | _, F64.nan => F64.nan
  | F64.fin a, F64.fin b =>
    if b = 0 then (if a = 0 then F64.nan else if a < 0 then F64.ninf else F64.pinf)
    else F64.round (a * b.sign * unitsPerOne) b.natAbs
  | F64.fin _, _ => F64.fin 0
  | F64.pinf, F64.fin b => if b < 0 then F64.ninf else F64.pinf
  | F64.ninf, F64.fin b => if b < 0 then F64.pinf else F64.ninf
  | _, _ => F64.nan

/-- Go's `time.Duration.Seconds` (standard library): a duration is an `int64` count of
nanoseconds, and the result is `float64(d / 1e9) + float64(d % 1e9) / 1e9` with
truncating integer division. -/
def Duration.Seconds (d : Int) : F64 :=
  F64.add (F64.ofInt64 (Int.tdiv d 1000000000))
    (F64.div (F64.ofInt64 (Int.tmod d 1000000000)) (F64.ofInt64 1000000000))

/-! ## GoStats -/

/-- Left-to-right floating-point sum, starting from `0`. -/
def StatsSum (data : List F64) : F64 := data.foldl F64.add F64.zero

/-- Modelled from the spec: `stats.StatsMean` belongs to the external package
`github.com/GaryBoone/GoStats`, whose source is not part of the repository.  The spec
calls it the arithmetic mean of the array: the sum of the slots divided by their
number (`0 / 0 = NaN` for the empty array). -/
def StatsMean (data : List F64) : F64 :=
  F64.div (StatsSum data) (F64.ofInt64 data.length)

/-! ## Data model (`main.go`, lines 26-54) -/

/-- Results of a single client / run. -/
structure RunResults where
  ID : Int
  Successes : Int
  Failures : Int
  Total : Int
  RunTime : F64
  MsgTimeMin : F64
  MsgTimeMax : F64
  MsgTimeMean : F64
  MsgTimeStd : F64
  MsgsPerSec : F64
  deriving DecidableEq, Repr

/-- Results of all clients / runs. -/
structure TotalResults where
  Ratio : F64
  Successes : Int
  Failures : Int
  Total : Int
  TotalRunTime : F64
  AvgRunTime : F64
  MsgTimeMin : F64
  MsgTimeMax : F64
  MsgTimeMeanAvg : F64
  MsgTimeMeanStd : F64
  TotalMsgsPerSec : F64
  AvgMsgsPerSec : F64
  deriving DecidableEq, Repr

/-- The value of `new(TotalResults)`: every field is zero. -/
def TotalResults.new : TotalResults where
  Ratio := F64.zero
  Successes := 0
  Failures := 0
  Total := 0
  TotalRunTime := F64.zero
  AvgRunTime := F64.zero
  MsgTimeMin := F64.zero
  MsgTimeMax := F64.zero
  MsgTimeMeanAvg := F64.zero
  MsgTimeMeanStd := F64.zero
  TotalMsgsPerSec := F64.zero
  AvgMsgsPerSec := F64.zero

/-! ## `calculateTotalResults` (`main.go`, lines 123-162) -/

/-- The variables the `for i, res := range results` loop updates. -/
structure LoopState where
  totals : TotalResults
  msgTimeMeans : List F64
  msgsPerSecs : List F64
  runTimes : List F64
  bws : List F64
  deriving DecidableEq, Repr

/-- Lines 140-142: the guarded update of the running minimum. -/
def updateMin (totals : TotalResults) (res : RunResults) : TotalResults :=
  if res.MsgTimeMin.isNaN == false &&
      (totals.MsgTimeMin.isNaN == true || F64.lt res.MsgTimeMin totals.MsgTimeMin) then
    { totals with MsgTimeMin := res.MsgTimeMin }
  else totals

/-- Lines 144-146: the guarded update of the running maximum. -/
def updateMax (totals : TotalResults) (res : RunResults) : TotalResults :=
  if res.MsgTimeMax.isNaN == false &&
      (totals.MsgTimeMax.isNaN == true || F64.gt res.MsgTimeMax totals.MsgTimeMax) then
    { totals with MsgTimeMax := res.MsgTimeMax }
  else totals

/-- Lines 134-137: the four running sums. -/
def addCounts (totals : TotalResults) (res : RunResults) : TotalResults :=
  { totals with
    Successes := add64 totals.Successes res.Successes
    Failures := add64 totals.Failures res.Failures
    Total := add64 totals.Total res.Total
    TotalMsgsPerSec := F64.add totals.TotalMsgsPerSec res.MsgsPerSec }

/-- The indexed write `arr[i] = v` of Go: an index out of range is a run-time panic,
`none`. -/
def setIndex (arr : List F64) (i : Nat) (v : F64) : Option (List F64) :=
  if i < arr.length then some (arr.set i v) else none

/-- One iteration of the loop (lines 134-152) for index `i` and element `res`; `none`
is an index-out-of-range panic of one of the four writes of lines 148-151. -/
def loopBody (s : LoopState) (i : Nat) (res : RunResults) : Option LoopState :=
  if res.Successes > 0 then do
    let msgTimeMeans ← setIndex s.msgTimeMeans i res.MsgTimeMean
    let msgsPerSecs ← setIndex s.msgsPerSecs i res.MsgsPerSec
    let runTimes ← setIndex s.runTimes i res.RunTime
    let bws ← setIndex s.bws i res.MsgsPerSec
    pure { totals := updateMax (updateMin (addCounts s.totals res) res) res
           msgTimeMeans := msgTimeMeans
           msgsPerSecs := msgsPerSecs
           runTimes := runTimes
           bws := bws }
  else
    pure { s with totals := addCounts s.totals res }

/-- The loop `for i, res := range results`, entered at index `i`; it stops at the first
iteration that panics. -/
def rangeLoop (s : LoopState) (i : Nat) : List RunResults → Option LoopState
  | [] => some s
  | res :: rest =>
    match loopBody s i res with
    | none => none
    | some next => rangeLoop next (i + 1) rest

/-- Lines 155-159: the fields computed after the loop.  `stdDev` stands for
`stats.StatsSampleStandardDeviation` of the external GoStats package. -/
def finish (stdDev : List F64 → F64) (s : LoopState) : TotalResults :=
  { s.totals with
    Ratio := F64.div (F64.ofInt64 s.totals.Successes) (F64.ofInt64 s.totals.Total)
    AvgMsgsPerSec := StatsMean s.msgsPerSecs
    AvgRunTime := StatsMean s.runTimes
    MsgTimeMeanAvg := StatsMean s.msgTimeMeans
    MsgTimeMeanStd := stdDev s.msgTimeMeans }

/-- The state on entry to the loop (lines 124-132), given `results[0]`. -/
def initState (results : List RunResults) (totalTime : Int) (first : RunResults) :
    LoopState where
  totals := { TotalResults.new with
    TotalRunTime := Duration.Seconds totalTime
    MsgTimeMin := first.MsgTimeMin }
  msgTimeMeans := List.replicate results.length F64.zero
  msgsPerSecs := List.replicate results.length F64.zero
  runTimes := List.replicate results.length F64.zero
  bws := List.replicate results.length F64.zero

/-- `calculateTotalResults(results, totalTime)`; `none` is a run-time panic: the
index-out-of-range of `results[0]` on line 132, or of a write of lines 148-151.
`stdDev` stands for the external `stats.StatsSampleStandardDeviation`. -/
def calculateTotalResults (stdDev : List F64 → F64) (results : List RunResults)
    (totalTime : Int) : Option TotalResults :=
  match results[0]? with
  | none => none
  | some first =>
    match rangeLoop (initState results totalTime first) 0 results with
    | none => none
    | some s => some (finish stdDev s)

/-! ## `main` (lines 84-118), with the workers abstracted -/

/-- Dereference every pointer of a `[]*RunResults`; `none` when one of them is nil. -/
def derefAll : List (Option RunResults) → Option (List RunResults)
  | [] => some []
  | none :: _ => none
  | some r :: rest =>
    match derefAll rest with
    | none => none
    | some rs => some (r :: rs)

/-- The call `calculateTotalResults(results, totalTime)` on the slice of pointers that
`main` passes: the function reads `results[0].MsgTimeMin` and `res.Successes` of every
element, so a nil entry is a run-time panic (`none`) like the empty slice. -/
def calculateTotalResultsPtr (stdDev : List F64 → F64) (ptrs : List (Option RunResults))
    (totalTime : Int) : Option TotalResults :=
  match derefAll ptrs with
  | none => none
  | some results => calculateTotalResults stdDev results totalTime

/-- What one receive `<-resCh` of line 114 yields. -/
inductive Received where
  /-- No worker ever sends another value: the receive blocks for ever. -/
  | never
  /-- A pointer sent by a worker; `none` is the nil pointer. -/
  | pointer (p : Option RunResults)
  deriving DecidableEq, Repr

/-- How the collection loop of lines 113-116 ends. -/
inductive Collected where
  /-- The receive of iteration `index` blocks for ever. -/
  | blocked (index : Nat)
  /-- Iteration `index` panics: index out of range, or nil dereference on line 115. -/
  | panicked (index : Nat)
  /-- The loop condition `i < *clients` failed: the loop is over. -/
  | done (results : List (Option RunResults))
  deriving DecidableEq, Repr

/-- The indexed write `results[i] = p` of Go: an index out of range is a run-time
panic, `none`. -/
def setPointer (arr : List (Option RunResults)) (i : Nat) (p : Option RunResults) :
    Option (List (Option RunResults)) :=
  if i < arr.length then some (arr.set i p) else none

/-- The loop `for i := 0; i < *clients; i++` of lines 113-116, entered at index `i` with
`remaining = *clients - i` iterations to go: receive, store at `results[i]`, then read
`results[i].ID` for the log line. -/
def collectLoop (resCh : Nat → Received) :
    Nat → Nat → List (Option RunResults) → Collected
  | 0, _, results => Collected.done results
  | remaining + 1, i, results =>
    match resCh i with
    | Received.never => Collected.blocked i
    | Received.pointer p =>
      match setPointer results i p with
      | none => Collected.panicked i
      | some stored =>
        match stored[i]? with
        | some (some _) => collectLoop resCh remaining (i + 1) stored
        | _ => Collected.panicked i

/-- How a run of `main` ends. -/
inductive Outcome where
  /-- `log.Fatal("Invlalid arguments")` on line 85: no worker was started and
  nothing was received. -/
  | fatal
  /-- All workers were started; the receive of iteration `index` blocks for ever. -/
  | blocked (started index : Nat)
  /-- All workers were started; iteration `index` of the collection loop panics. -/
  | panicked (started index : Nat)
  /-- `calculateTotalResults` was called with `results` and panicked. -/
  | panickedInTotals (started : Nat) (results : List (Option RunResults))
  /-- `calculateTotalResults` was called with `results` and returned `totals`. -/
  | completed (started : Nat) (results : List (Option RunResults)) (totals : TotalResults)
  deriving DecidableEq, Repr

/-- The skeleton of `main`: `clients` is the parsed flag, `resCh i` is what the receive of
iteration `i` yields (the workers of `client.go` are not modelled), `totalTime` the
measured duration.  The spawn loop of lines 90-109 starts one worker per iteration and
cannot fail; `make([]*RunResults, *clients)` is a slice of `clients` nil pointers. -/
def main (stdDev : List F64 → F64) (clients : Int) (resCh : Nat → Received)
    (totalTime : Int) : Outcome :=
  if clients < 1 then Outcome.fatal
  else
    let started := clients.toNat
    match collectLoop resCh clients.toNat 0 (List.replicate clients.toNat none) with
    | Collected.blocked index => Outcome.blocked started index
    | Collected.panicked index => Outcome.panicked started index
    | Collected.done results =>
      match calculateTotalResultsPtr stdDev results totalTime with
      | none => Outcome.panickedInTotals started results
      | some totals => Outcome.completed started results totals

/-! ## Sample clients -/

/-- A client that failed to connect: every field is zero. -/
def failedClient : RunResults where
  ID := 0
  Successes := 0
  Failures := 0
  Total := 0
  RunTime := F64.zero
  MsgTimeMin := F64.zero
  MsgTimeMax := F64.zero
  MsgTimeMean := F64.zero
  MsgTimeStd := F64.zero
  MsgsPerSec := F64.zero

/-- A client with 5 of 5 publishes delivered in 1 s, latencies between 3 and 7 ms. -/
def goodClient : RunResults where
  ID := 1
  Successes := 5
  Failures := 0
  Total := 5
  RunTime := F64.ofInt64 1
  MsgTimeMin := F64.ofInt64 3
  MsgTimeMax := F64.ofInt64 7
  MsgTimeMean := F64.ofInt64 4
  MsgTimeStd := F64.ofInt64 1
  MsgsPerSec := F64.ofInt64 5

/-- A client that connected and ran for 2 s, but whose 5 publishes all failed: it has
no latency sample, so its latency statistics are NaN. -/
def noSuccessClient : RunResults where
  ID := 2
  Successes := 0
  Failures := 5
  Total := 5
  RunTime := F64.ofInt64 2
  MsgTimeMin := F64.nan
  MsgTimeMax := F64.nan
  MsgTimeMean := F64.nan
  MsgTimeStd := F64.zero
  MsgsPerSec := F64.zero

/-- A client started with `count = 0`: it connected and sent nothing. -/
def idleClient : RunResults where
  ID := 3
  Successes := 0
  Failures := 0
  Total := 0
  RunTime := F64.ofInt64 1
  MsgTimeMin := F64.nan
  MsgTimeMax := F64.nan
  MsgTimeMean := F64.nan
  MsgTimeStd := F64.zero
  MsgsPerSec := F64.zero

/-- A stand-in for the external standard deviation where a concrete one is needed. -/
def sampleStdDev (_ : List F64) : F64 := F64.zero

/-! ## Specification-side vocabulary -/

/-- The value the loop leaves in slot `i` of a per-client array: the client's own
value when `Successes > 0`, the zero the array was created with otherwise. -/
def slotOf (f : RunResults → F64) (res : RunResults) : F64 :=
  if res.Successes > 0 then f res else F64.zero

/-- The exact (unbounded) sum of an `int64` field over the list. -/
def fieldSum (f : RunResults → Int) (results : List RunResults) : Int :=
  (results.map f).sum

/-- A value that arithmetic can produce: NaN, an infinity, or a finite number that
rounding leaves unchanged. -/
def F64.Canonical : F64 → Prop
  | F64.fin k => roundMag k.natAbs 1 = k.natAbs ∧ k.natAbs < overflowMag
  | _ => True

/-- What one loop iteration does to the running maximum `m` (lines 139, 144-146). -/
def maxStep (m : F64) (res : RunResults) : F64 :=
  if res.Successes > 0 then
    if res.MsgTimeMax.isNaN == false && (m.isNaN == true || F64.gt res.MsgTimeMax m) then
      res.MsgTimeMax
    else m
  else m

/-- What one loop iteration does to the running minimum `m` (lines 139-142). -/
def minStep (m : F64) (res : RunResults) : F64 :=
  if res.Successes > 0 then
    if res.MsgTimeMin.isNaN == false && (m.isNaN == true || F64.lt res.MsgTimeMin m) then
      res.MsgTimeMin
    else m
  else m

/-- The guarded replacement shared by lines 140-142 and 144-146: the candidate `x`
replaces the running value `m` when `x` is not NaN and `m` is NaN or `x` beats `m`. -/
def pick (better : F64 → F64 → Bool) (m x : F64) : F64 :=
  if x.isNaN == false && (m.isNaN == true || better x m) then x else m

/-- The clients of the list with `Successes > 0`, in order. -/
def successful (results : List RunResults) : List RunResults :=
  results.filter (fun r => decide (r.Successes > 0))

/-- The candidate values for an extremum: the field `f` of the clients with
`Successes > 0`, NaN values left out. -/
def candidates (f : RunResults → F64) (results : List RunResults) : List F64 :=
  ((successful results).map f).filter (fun x => x.isNaN == false)

/-! ## int64 lemmas -/

theorem wrapInt64_emod (x : Int) : wrapInt64 x % 2 ^ 64 = x % 2 ^ 64 := by
  unfold wrapInt64
  omega

theorem wrapInt64_congr {x y : Int} (h : x % 2 ^ 64 = y % 2 ^ 64) :
    wrapInt64 x = wrapInt64 y := by
  unfold wrapInt64
  omega

theorem wrapInt64_wrap_add (a b : Int) : wrapInt64 (wrapInt64 a + b) = wrapInt64 (a + b) := by
  apply wrapInt64_congr
  have := wrapInt64_emod a
  omega

theorem wrapInt64_of_range {x : Int} (h1 : -(2 ^ 63) ≤ x) (h2 : x < 2 ^ 63) :
    wrapInt64 x = x := by
  unfold wrapInt64
  omega

theorem foldl_add64 (l : List Int) (a : Int) :
    l.foldl add64 (wrapInt64 a) = wrapInt64 (a + l.sum) := by
  induction l generalizing a with
  | nil => simp
  | cons x xs ih =>
    simp only [List.foldl_cons, List.sum_cons, add64, wrapInt64_wrap_add]
    rw [ih, add_assoc]

theorem foldl_add64_zero (l : List Int) : l.foldl add64 0 = wrapInt64 l.sum := by
  have h := foldl_add64 l 0
  have h0 : wrapInt64 0 = 0 := by decide
  rw [h0, zero_add] at h
  exact h

/-! ## float64 lemmas -/

theorem bitLenAux_zero (f : Nat) : bitLenAux f 0 = 0 := by
  cases f <;> simp [bitLenAux]

theorem bitLenAux_bounds (f : Nat) : ∀ n, n ≤ f →
    n < 2 ^ bitLenAux f n ∧ (n ≠ 0 → 2 ^ (bitLenAux f n - 1) ≤ n) := by
  induction f with
  | zero =>
    intro n hn
    have : n = 0 := by omega
    subst this
    simp [bitLenAux]
  | succ f ih =>
    intro n hn
    by_cases h0 : n = 0
    · subst h0
      simp [bitLenAux]
    · have hhalf : n / 2 ≤ f := by omega
      obtain ⟨h1, h2⟩ := ih (n / 2) hhalf
      simp only [bitLenAux, h0, if_false, Nat.add_sub_cancel]
      constructor
      · rw [pow_succ]
        omega
      · intro _
        by_cases hz : n / 2 = 0
        · rw [hz, bitLenAux_zero]
          simp
          omega
        · have h3 := h2 hz
          have hpos : 1 ≤ bitLenAux f (n / 2) := by
            by_contra hc
            have : bitLenAux f (n / 2) = 0 := by omega
            rw [this] at h1
            simp at h1
            exact hz h1
          have : 2 ^ bitLenAux f (n / 2) = 2 * 2 ^ (bitLenAux f (n / 2) - 1) := by
            rw [← pow_succ']
            congr 1
            omega
          omega

theorem lt_two_pow_bitLen (n : Nat) : n < 2 ^ bitLen n :=
  (bitLenAux_bounds n n le_rfl).1

theorem two_pow_bitLen_le (n : Nat) (h : n ≠ 0) : 2 ^ (bitLen n - 1) ≤ n :=
  (bitLenAux_bounds n n le_rfl).2 h

theorem bitLen_le_of_lt {n k : Nat} (h : n < 2 ^ k) : bitLen n ≤ k := by
  by_cases h0 : n = 0
  · subst h0
    simp [bitLen, bitLenAux_zero]
  · by_contra hc
    have h1 := two_pow_bitLen_le n h0
    have h2 : 2 ^ k ≤ 2 ^ (bitLen n - 1) := Nat.pow_le_pow_right (by norm_num) (by omega)
    omega

theorem bitLen_mono {m n : Nat} (h : m ≤ n) : bitLen m ≤ bitLen n :=
  bitLen_le_of_lt (lt_of_le_of_lt h (lt_two_pow_bitLen n))


/-! ### round half even -/

theorem div_le_roundHalfEven (p q : Nat) : p / q ≤ roundHalfEven p q := by
  unfold roundHalfEven
  split_ifs <;> omega

theorem roundHalfEven_le_succ (p q : Nat) : roundHalfEven p q ≤ p / q + 1 := by
  unfold roundHalfEven
  split_ifs <;> omega

theorem roundHalfEven_le_of_lt {p q N : Nat} (h : p < N * q) : roundHalfEven p q ≤ N := by
  have hq : 0 < q := by
    rcases Nat.eq_zero_or_pos q with h0 | h0
    · subst h0; simp at h
    · exact h0
  have h1 : p / q < N := (Nat.div_lt_iff_lt_mul hq).2 h
  have h2 := roundHalfEven_le_succ p q
  omega

theorem roundHalfEven_mul (m q : Nat) (hq : 0 < q) : roundHalfEven (m * q) q = m := by
  unfold roundHalfEven
  have h1 : m * q % q = 0 := Nat.mul_mod_left m q
  have h2 : m * q / q = m := Nat.mul_div_cancel m hq
  rw [h1, h2]
  simp [hq]

theorem div_le_div_of_cross {p1 q1 p2 q2 : Nat} (hq1 : 0 < q1) (hq2 : 0 < q2)
    (h : p1 * q2 ≤ p2 * q1) : p1 / q1 ≤ p2 / q2 := by
  rw [Nat.le_div_iff_mul_le hq2]
  have h1 : p1 / q1 * q1 ≤ p1 := Nat.div_mul_le_self p1 q1
  have h2 : p1 / q1 * q2 * q1 ≤ p2 * q1 := by
    calc p1 / q1 * q2 * q1 = p1 / q1 * q1 * q2 := by ring
      _ ≤ p1 * q2 := Nat.mul_le_mul_right q2 h1
      _ ≤ p2 * q1 := h
  exact Nat.le_of_mul_le_mul_right h2 hq1

theorem roundHalfEven_mono {p1 q1 p2 q2 : Nat} (hq1 : 0 < q1) (hq2 : 0 < q2)
    (h : p1 * q2 ≤ p2 * q1) : roundHalfEven p1 q1 ≤ roundHalfEven p2 q2 := by
  have hd := div_le_div_of_cross hq1 hq2 h
  rcases Nat.lt_or_ge (p1 / q1) (p2 / q2) with hlt | hge
  · have a := roundHalfEven_le_succ p1 q1
    have b := div_le_roundHalfEven p2 q2
    omega
  · have hdeq : p1 / q1 = p2 / q2 := le_antisymm hd hge
    have e1 : q1 * (p1 / q1) + p1 % q1 = p1 := Nat.div_add_mod p1 q1
    have e2 : q2 * (p2 / q2) + p2 % q2 = p2 := Nat.div_add_mod p2 q2
    have hr : (p1 % q1) * q2 ≤ (p2 % q2) * q1 := by
      have h' : (q1 * (p1 / q1) + p1 % q1) * q2 ≤ (q2 * (p2 / q2) + p2 % q2) * q1 := by
        rw [e1, e2]; exact h
      rw [hdeq] at h'
      nlinarith
    unfold roundHalfEven
    rw [hdeq]
    split_ifs <;> first | omega | (exfalso; nlinarith)


/-! ### rounding to 53 bits -/

theorem div_lt_pow_roundShift (p q : Nat) : p / q < 2 ^ (roundShift p q + 53) := by
  have h := lt_two_pow_bitLen (p / q)
  have hle : bitLen (p / q) ≤ roundShift p q + 53 := by unfold roundShift; omega
  exact lt_of_lt_of_le h (Nat.pow_le_pow_right (by norm_num) hle)

theorem pow_roundShift_le_div (p q : Nat) (h : 0 < roundShift p q) :
    2 ^ (roundShift p q + 52) ≤ p / q := by
  have hb : bitLen (p / q) = roundShift p q + 53 := by unfold roundShift at h ⊢; omega
  have h0 : p / q ≠ 0 := by
    intro hz
    rw [hz] at hb
    simp [bitLen, bitLenAux_zero] at hb
  have h1 := two_pow_bitLen_le (p / q) h0
  rw [hb] at h1
  exact h1

theorem roundShift_mono {p1 q1 p2 q2 : Nat} (hq1 : 0 < q1) (hq2 : 0 < q2)
    (h : p1 * q2 ≤ p2 * q1) : roundShift p1 q1 ≤ roundShift p2 q2 := by
  have := bitLen_mono (div_le_div_of_cross hq1 hq2 h)
  unfold roundShift
  omega

theorem roundHalfEven_shift_le (p q : Nat) (hq : 0 < q) :
    roundHalfEven p (q * 2 ^ roundShift p q) ≤ 2 ^ 53 := by
  apply roundHalfEven_le_of_lt
  have h1 := div_lt_pow_roundShift p q
  have h2 : p < 2 ^ (roundShift p q + 53) * q := (Nat.div_lt_iff_lt_mul hq).1 h1
  calc p < 2 ^ (roundShift p q + 53) * q := h2
    _ = 2 ^ 53 * (q * 2 ^ roundShift p q) := by rw [pow_add]; ring

theorem roundMag_le_pow (p q : Nat) (hq : 0 < q) :
    roundMag p q ≤ 2 ^ (roundShift p q + 53) := by
  unfold roundMag
  have h := roundHalfEven_shift_le p q hq
  calc roundHalfEven p (q * 2 ^ roundShift p q) * 2 ^ roundShift p q
      ≤ 2 ^ 53 * 2 ^ roundShift p q := Nat.mul_le_mul_right _ h
    _ = 2 ^ (roundShift p q + 53) := by rw [pow_add]; ring

theorem pow_le_roundMag (p q : Nat) (hq : 0 < q) (h : 0 < roundShift p q) :
    2 ^ (roundShift p q + 52) ≤ roundMag p q := by
  unfold roundMag
  have h1 := pow_roundShift_le_div p q h
  have hQ : 0 < q * 2 ^ roundShift p q := Nat.mul_pos hq (by positivity)
  have h2 : 2 ^ 52 ≤ p / (q * 2 ^ roundShift p q) := by
    rw [Nat.le_div_iff_mul_le hQ]
    have h3 : 2 ^ (roundShift p q + 52) * q ≤ p := (Nat.le_div_iff_mul_le hq).1 h1
    calc 2 ^ 52 * (q * 2 ^ roundShift p q) = 2 ^ (roundShift p q + 52) * q := by
          rw [pow_add]; ring
      _ ≤ p := h3
  have h4 := div_le_roundHalfEven p (q * 2 ^ roundShift p q)
  calc 2 ^ (roundShift p q + 52) = 2 ^ 52 * 2 ^ roundShift p q := by rw [pow_add]; ring
    _ ≤ roundHalfEven p (q * 2 ^ roundShift p q) * 2 ^ roundShift p q :=
        Nat.mul_le_mul_right _ (le_trans h2 h4)

/-- Rounding is monotone: `p1 / q1 ≤ p2 / q2` implies the same of the rounded values. -/
theorem roundMag_mono {p1 q1 p2 q2 : Nat} (hq1 : 0 < q1) (hq2 : 0 < q2)
    (h : p1 * q2 ≤ p2 * q1) : roundMag p1 q1 ≤ roundMag p2 q2 := by
  have hs := roundShift_mono hq1 hq2 h
  rcases Nat.lt_or_ge (roundShift p1 q1) (roundShift p2 q2) with hlt | hge
  · have a := roundMag_le_pow p1 q1 hq1
    have b := pow_le_roundMag p2 q2 hq2 (by omega)
    have c : 2 ^ (roundShift p1 q1 + 53) ≤ 2 ^ (roundShift p2 q2 + 52) :=
      Nat.pow_le_pow_right (by norm_num) (by omega)
    omega
  · have heq : roundShift p1 q1 = roundShift p2 q2 := le_antisymm hs hge
    unfold roundMag
    rw [heq]
    apply Nat.mul_le_mul_right
    apply roundHalfEven_mono (Nat.mul_pos hq1 (by positivity)) (Nat.mul_pos hq2 (by positivity))
    calc p1 * (q2 * 2 ^ roundShift p2 q2) = p1 * q2 * 2 ^ roundShift p2 q2 := by ring
      _ ≤ p2 * q1 * 2 ^ roundShift p2 q2 := Nat.mul_le_mul_right _ h
      _ = p2 * (q1 * 2 ^ roundShift p2 q2) := by ring

/-- A magnitude with at most 53 significant bits is left unchanged by rounding. -/
theorem roundMag_of_dvd (r : Nat) (h : 2 ^ (bitLen r - 53) ∣ r) : roundMag r 1 = r := by
  unfold roundMag roundShift
  rw [Nat.div_one, one_mul]
  generalize bitLen r - 53 = s at h ⊢
  obtain ⟨m, rfl⟩ := h
  rw [mul_comm (2 ^ s) m, roundHalfEven_mul m (2 ^ s) (Nat.pow_pos (by norm_num))]

/-- The result of rounding has at most 53 significant bits. -/
theorem dvd_roundMag (p q : Nat) (hq : 0 < q) :
    2 ^ (bitLen (roundMag p q) - 53) ∣ roundMag p q := by
  have hm := roundHalfEven_shift_le p q hq
  rcases Nat.lt_or_ge (roundHalfEven p (q * 2 ^ roundShift p q)) (2 ^ 53) with hlt | hge
  · have hb : bitLen (roundMag p q) ≤ roundShift p q + 53 := by
      apply bitLen_le_of_lt
      unfold roundMag
      calc roundHalfEven p (q * 2 ^ roundShift p q) * 2 ^ roundShift p q
          < 2 ^ 53 * 2 ^ roundShift p q := Nat.mul_lt_mul_of_pos_right hlt (by positivity)
        _ = 2 ^ (roundShift p q + 53) := by rw [pow_add]; ring
    have hd : 2 ^ (bitLen (roundMag p q) - 53) ∣ 2 ^ roundShift p q :=
      pow_dvd_pow 2 (by omega)
    exact dvd_trans hd (by unfold roundMag; exact Dvd.intro_left _ rfl)
  · have heq : roundHalfEven p (q * 2 ^ roundShift p q) = 2 ^ 53 := le_antisymm hm hge
    have hv : roundMag p q = 2 ^ (roundShift p q + 53) := by
      unfold roundMag
      rw [heq, pow_add]; ring
    have hb : bitLen (roundMag p q) ≤ roundShift p q + 54 := by
      apply bitLen_le_of_lt
      rw [hv]
      exact Nat.pow_lt_pow_right (by norm_num) (by omega)
    rw [hv] at hb ⊢
    exact pow_dvd_pow 2 (by omega)

/-- Rounding is idempotent. -/
theorem roundMag_roundMag (p q : Nat) (hq : 0 < q) :
    roundMag (roundMag p q) 1 = roundMag p q :=
  roundMag_of_dvd _ (dvd_roundMag p q hq)

theorem roundMag_zero (q : Nat) : roundMag 0 q = 0 := by
  simp [roundMag, roundHalfEven]


/-! ### float64 level -/

theorem roundMag_unitsPerOne : roundMag unitsPerOne 1 = unitsPerOne := by decide!

theorem roundMag_int64_bound :
    roundMag (2 ^ 63 * unitsPerOne) 1 < overflowMag := by decide!

theorem unitsPerOne_lt_overflowMag : unitsPerOne < overflowMag := by decide!

theorem unitsPerOne_pos : 0 < unitsPerOne := by decide!

theorem round_of_nonneg {n : Int} {d : Nat} (hn : 0 ≤ n)
    (h : roundMag n.natAbs d < overflowMag) :
    F64.round n d = F64.fin (roundMag n.natAbs d) := by
  unfold F64.round
  rw [if_neg (not_le.2 h), if_neg (not_lt.2 hn)]

/-- `float64(n)` of a non-negative `int64` is finite, and at least `1.0` when `n ≥ 1`. -/
theorem ofInt64_of_nonneg {n : Int} (h0 : 0 ≤ n) (h1 : n < 2 ^ 63) :
    F64.ofInt64 n = F64.fin (roundMag (n.natAbs * unitsPerOne) 1) ∧
      (1 ≤ n → unitsPerOne ≤ roundMag (n.natAbs * unitsPerOne) 1) := by
  have habs : (n * (unitsPerOne : Int)).natAbs = n.natAbs * unitsPerOne := by
    rw [Int.natAbs_mul, Int.natAbs_ofNat]
  have hle : n.natAbs ≤ 2 ^ 63 := by omega
  have hb : roundMag (n.natAbs * unitsPerOne) 1 < overflowMag := by
    refine lt_of_le_of_lt (roundMag_mono Nat.one_pos Nat.one_pos ?_) roundMag_int64_bound
    simp only [mul_one]
    exact Nat.mul_le_mul_right _ hle
  constructor
  · unfold F64.ofInt64
    rw [round_of_nonneg (mul_nonneg h0 (Int.ofNat_nonneg _)) (by rw [habs]; exact hb), habs]
  · intro h
    have h' : 1 ≤ n.natAbs := by omega
    have := @roundMag_mono unitsPerOne 1 (n.natAbs * unitsPerOne) 1 Nat.one_pos Nat.one_pos
      (by simp only [mul_one]; exact Nat.le_mul_of_pos_left _ h')
    rw [roundMag_unitsPerOne] at this
    exact this

theorem ofInt64_mono_of_nonneg {m n : Int} (h0 : 0 ≤ m) (h : m ≤ n) :
    roundMag (m.natAbs * unitsPerOne) 1 ≤ roundMag (n.natAbs * unitsPerOne) 1 := by
  apply roundMag_mono Nat.one_pos Nat.one_pos
  simp only [mul_one]
  exact Nat.mul_le_mul_right _ (by omega)

/-- A quotient of two finite numbers `0 ≤ a ≤ b`, `0 < b`, lies between `0` and `1.0`. -/
theorem div_fin_le_one {a b : Nat} (hab : a ≤ b) (hb : 0 < b) :
    F64.div (F64.fin a) (F64.fin b) = F64.fin (roundMag (a * unitsPerOne) b) ∧
      roundMag (a * unitsPerOne) b ≤ unitsPerOne := by
  have hle : roundMag (a * unitsPerOne) b ≤ unitsPerOne := by
    have := @roundMag_mono (a * unitsPerOne) b unitsPerOne 1 hb Nat.one_pos
      (by rw [mul_one, mul_comm]; exact Nat.mul_le_mul_left _ hab)
    rw [roundMag_unitsPerOne] at this
    exact this
  refine ⟨?_, hle⟩
  have hb0 : (b : Int) ≠ 0 := by omega
  have hsign : (b : Int).sign = 1 := Int.sign_eq_one_of_pos (by omega)
  have habs : ((a : Int) * 1 * (unitsPerOne : Int)).natAbs = a * unitsPerOne := by
    rw [mul_one, Int.natAbs_mul, Int.natAbs_ofNat, Int.natAbs_ofNat]
  unfold F64.div
  simp only [hb0, if_false, hsign, Int.natAbs_ofNat]
  rw [round_of_nonneg (by positivity)
    (by rw [habs]; exact lt_of_le_of_lt hle unitsPerOne_lt_overflowMag), habs]

/-- The ratio `float64(s) / float64(t)` for `int64` values `0 ≤ s ≤ t`, `1 ≤ t`. -/
theorem ratio_bounds {s t : Int} (h0 : 0 ≤ s) (hst : s ≤ t) (h1 : 1 ≤ t) (ht : t < 2 ^ 63) :
    ∃ k : Nat, F64.div (F64.ofInt64 s) (F64.ofInt64 t) = F64.fin k ∧ k ≤ unitsPerOne := by
  obtain ⟨es, _⟩ := ofInt64_of_nonneg h0 (lt_of_le_of_lt hst ht)
  obtain ⟨et, hpos⟩ := ofInt64_of_nonneg (by omega : (0 : Int) ≤ t) ht
  have hmono := ofInt64_mono_of_nonneg h0 hst
  have hb := lt_of_lt_of_le unitsPerOne_pos (hpos h1)
  obtain ⟨e, hle⟩ := div_fin_le_one hmono hb
  exact ⟨_, by rw [es, et]; exact e, hle⟩

/-! ### sums -/

theorem canonical_zero : F64.Canonical F64.zero := by
  have h : (0 : Nat) < overflowMag := lt_trans unitsPerOne_pos unitsPerOne_lt_overflowMag
  simpa [F64.Canonical, F64.zero, roundMag_zero] using h

theorem canonical_round (n : Int) (d : Nat) (hd : 0 < d) : F64.Canonical (F64.round n d) := by
  unfold F64.round
  split_ifs with h1 h2 h3
  · trivial
  · trivial
  · simp only [F64.Canonical, Int.natAbs_neg, Int.natAbs_ofNat]
    exact ⟨roundMag_roundMag _ _ hd, not_le.1 h1⟩
  · simp only [F64.Canonical, Int.natAbs_ofNat]
    exact ⟨roundMag_roundMag _ _ hd, not_le.1 h1⟩

theorem canonical_add (a b : F64) : F64.Canonical (F64.add a b) := by
  cases a <;> cases b <;> simp only [F64.add] <;>
    first | trivial | exact canonical_round _ 1 Nat.one_pos

/-- Adding `0` to a value produced by arithmetic does not change it. -/
theorem add_zero_of_canonical (a : F64) (h : F64.Canonical a) : F64.add a F64.zero = a := by
  cases a with
  | nan => rfl
  | ninf => rfl
  | pinf => rfl
  | fin k =>
    obtain ⟨h1, h2⟩ := h
    simp only [F64.add, F64.zero, add_zero]
    unfold F64.round
    rw [if_neg (by rw [h1]; exact not_le.2 h2), h1]
    split_ifs with hk
    · congr 1; omega
    · congr 1; omega

/-- Adding a finite number never produces NaN. -/
theorem add_fin_ne_nan (a : F64) (k : Int) (h : a ≠ F64.nan) :
    F64.add a (F64.fin k) ≠ F64.nan := by
  cases a with
  | nan => exact absurd rfl h
  | ninf => simp [F64.add]
  | pinf => simp [F64.add]
  | fin j =>
    simp only [F64.add, F64.round]
    split_ifs <;> simp

theorem foldl_add_slots (f : RunResults → F64) (rs : List RunResults) (acc : F64)
    (h : F64.Canonical acc) :
    (rs.map (slotOf f)).foldl F64.add acc =
      ((rs.filter (fun r => decide (r.Successes > 0))).map f).foldl F64.add acc := by
  induction rs generalizing acc with
  | nil => rfl
  | cons r rest ih =>
    by_cases hr : r.Successes > 0
    · simp only [List.map_cons, List.foldl_cons, slotOf, hr, if_true, List.filter_cons,
        decide_True]
      exact ih _ (canonical_add _ _)
    · simp only [List.map_cons, List.foldl_cons, slotOf, hr, if_false, List.filter_cons,
        decide_False]
      rw [add_zero_of_canonical acc h]
      exact ih acc h

/-- The sum over the slot array is the sum over the successful clients only. -/
theorem statsSum_slots (f : RunResults → F64) (rs : List RunResults) :
    StatsSum (rs.map (slotOf f)) =
      StatsSum ((rs.filter (fun r => decide (r.Successes > 0))).map f) :=
  foldl_add_slots f rs F64.zero canonical_zero

theorem foldl_add_ne_nan (l : List F64) (acc : F64) (hacc : acc ≠ F64.nan)
    (h : ∀ x ∈ l, ∃ k, x = F64.fin k) : l.foldl F64.add acc ≠ F64.nan := by
  induction l generalizing acc with
  | nil => exact hacc
  | cons x xs ih =>
    obtain ⟨k, rfl⟩ := h x (List.mem_cons_self _ _)
    exact ih _ (add_fin_ne_nan acc k hacc) (fun y hy => h y (List.mem_cons_of_mem _ hy))

/-- Dividing a non-NaN value by `float64(n)`, `1 ≤ n < 2^63`, never produces NaN. -/
theorem div_ofInt64_ne_nan (a : F64) (n : Int) (h1 : 1 ≤ n) (h2 : n < 2 ^ 63)
    (ha : a ≠ F64.nan) : F64.div a (F64.ofInt64 n) ≠ F64.nan := by
  obtain ⟨e, hpos⟩ := ofInt64_of_nonneg (by omega : (0 : Int) ≤ n) h2
  have hb := lt_of_lt_of_le unitsPerOne_pos (hpos h1)
  rw [e]
  have hb0 : ((roundMag (n.natAbs * unitsPerOne) 1 : Nat) : Int) ≠ 0 := by omega
  have hneg : ¬ ((roundMag (n.natAbs * unitsPerOne) 1 : Nat) : Int) < 0 := by omega
  cases a with
  | nan => exact absurd rfl ha
  | ninf => simp [F64.div, hneg]
  | pinf => simp [F64.div, hneg]
  | fin j =>
    simp only [F64.div, hb0, if_false, F64.round]
    split_ifs <;> simp

/-! ## The loop, field by field -/

theorem updateMin_counts (t : TotalResults) (r : RunResults) :
    (updateMin t r).Successes = t.Successes ∧ (updateMin t r).Failures = t.Failures ∧
      (updateMin t r).Total = t.Total ∧ (updateMin t r).MsgTimeMax = t.MsgTimeMax := by
  unfold updateMin
  split <;> simp

theorem updateMax_counts (t : TotalResults) (r : RunResults) :
    (updateMax t r).Successes = t.Successes ∧ (updateMax t r).Failures = t.Failures ∧
      (updateMax t r).Total = t.Total ∧ (updateMax t r).MsgTimeMin = t.MsgTimeMin := by
  unfold updateMax
  split <;> simp

theorem setIndex_eq_some {arr : List F64} {i : Nat} {v : F64} {out : List F64}
    (h : setIndex arr i v = some out) : i < arr.length ∧ out = arr.set i v := by
  unfold setIndex at h
  split at h
  · exact ⟨by assumption, (Option.some.inj h).symm⟩
  · exact absurd h (by simp)

theorem setIndex_of_lt {arr : List F64} {i : Nat} (v : F64) (h : i < arr.length) :
    setIndex arr i v = some (arr.set i v) := by
  simp [setIndex, h]

/-- What an iteration that does not panic returns. -/
theorem loopBody_eq_some {s : LoopState} {i : Nat} {r : RunResults} {s' : LoopState}
    (h : loopBody s i r = some s') :
    s'.totals = (if r.Successes > 0 then updateMax (updateMin (addCounts s.totals r) r) r
      else addCounts s.totals r) ∧
    s'.msgTimeMeans =
      (if r.Successes > 0 then s.msgTimeMeans.set i r.MsgTimeMean else s.msgTimeMeans) ∧
    s'.msgsPerSecs =
      (if r.Successes > 0 then s.msgsPerSecs.set i r.MsgsPerSec else s.msgsPerSecs) ∧
    s'.runTimes = (if r.Successes > 0 then s.runTimes.set i r.RunTime else s.runTimes) ∧
    s'.bws = (if r.Successes > 0 then s.bws.set i r.MsgsPerSec else s.bws) := by
  unfold loopBody at h
  by_cases hr : r.Successes > 0
  · simp only [hr, if_true, bind, Option.bind_eq_some, pure] at h ⊢
    obtain ⟨a, ha, b, hb, c, hc, d, hd, e⟩ := h
    obtain ⟨_, rfl⟩ := setIndex_eq_some ha
    obtain ⟨_, rfl⟩ := setIndex_eq_some hb
    obtain ⟨_, rfl⟩ := setIndex_eq_some hc
    obtain ⟨_, rfl⟩ := setIndex_eq_some hd
    obtain rfl := Option.some.inj e
    exact ⟨rfl, rfl, rfl, rfl, rfl⟩
  · simp only [hr, if_false, pure] at h ⊢
    obtain rfl := Option.some.inj h
    exact ⟨rfl, rfl, rfl, rfl, rfl⟩

/-- An iteration does not panic when the index is in range of the four arrays. -/
theorem loopBody_isSome (s : LoopState) (i : Nat) (r : RunResults)
    (h1 : i < s.msgTimeMeans.length) (h2 : i < s.msgsPerSecs.length)
    (h3 : i < s.runTimes.length) (h4 : i < s.bws.length) :
    ∃ s', loopBody s i r = some s' := by
  unfold loopBody
  by_cases hr : r.Successes > 0
  · simp only [hr, if_true, bind, pure, setIndex_of_lt _ h1, setIndex_of_lt _ h2,
      setIndex_of_lt _ h3, setIndex_of_lt _ h4, Option.some_bind]
    exact ⟨_, rfl⟩
  · simp only [hr, if_false, pure]
    exact ⟨_, rfl⟩

/-- An iteration panics when it has to write at an index out of range. -/
theorem loopBody_eq_none_of_le (s : LoopState) (i : Nat) (r : RunResults)
    (hr : r.Successes > 0) (h : s.msgTimeMeans.length ≤ i) : loopBody s i r = none := by
  unfold loopBody
  simp only [hr, if_true, bind, setIndex, not_lt.2 h, if_false, Option.none_bind]

theorem loopBody_lengths {s : LoopState} {i : Nat} {r : RunResults} {s' : LoopState}
    (h : loopBody s i r = some s') :
    s'.msgTimeMeans.length = s.msgTimeMeans.length ∧
      s'.msgsPerSecs.length = s.msgsPerSecs.length ∧
      s'.runTimes.length = s.runTimes.length ∧ s'.bws.length = s.bws.length := by
  obtain ⟨_, h1, h2, h3, h4⟩ := loopBody_eq_some h
  rw [h1, h2, h3, h4]
  refine ⟨?_, ?_, ?_, ?_⟩ <;> split <;> simp

theorem loopBody_counts {s : LoopState} {i : Nat} {r : RunResults} {s' : LoopState}
    (h : loopBody s i r = some s') :
    s'.totals.Successes = add64 s.totals.Successes r.Successes ∧
      s'.totals.Failures = add64 s.totals.Failures r.Failures ∧
      s'.totals.Total = add64 s.totals.Total r.Total := by
  rw [(loopBody_eq_some h).1]
  split
  · simp only [(updateMax_counts _ _).1, (updateMax_counts _ _).2.1, (updateMax_counts _ _).2.2.1,
      (updateMin_counts _ _).1, (updateMin_counts _ _).2.1, (updateMin_counts _ _).2.2.1]
    simp [addCounts]
  · simp [addCounts]

theorem rangeLoop_cons_eq_some {s : LoopState} {i : Nat} {r : RunResults}
    {rest : List RunResults} {s' : LoopState} (h : rangeLoop s i (r :: rest) = some s') :
    ∃ next, loopBody s i r = some next ∧ rangeLoop next (i + 1) rest = some s' := by
  simp only [rangeLoop] at h
  cases hb : loopBody s i r with
  | none => rw [hb] at h; exact absurd h (by simp)
  | some next => rw [hb] at h; exact ⟨next, rfl, h⟩

theorem rangeLoop_counts {s : LoopState} {i : Nat} {rs : List RunResults} {s' : LoopState}
    (h : rangeLoop s i rs = some s') :
    s'.totals.Successes = (rs.map RunResults.Successes).foldl add64 s.totals.Successes ∧
      s'.totals.Failures = (rs.map RunResults.Failures).foldl add64 s.totals.Failures ∧
      s'.totals.Total = (rs.map RunResults.Total).foldl add64 s.totals.Total := by
  induction rs generalizing s i with
  | nil =>
    simp only [rangeLoop] at h
    obtain rfl := Option.some.inj h
    simp
  | cons r rest ih =>
    obtain ⟨next, hb, hrest⟩ := rangeLoop_cons_eq_some h
    obtain ⟨h1, h2, h3⟩ := loopBody_counts hb
    obtain ⟨k1, k2, k3⟩ := ih hrest
    simp only [List.map_cons, List.foldl_cons]
    rw [k1, k2, k3, h1, h2, h3]
    exact ⟨rfl, rfl, rfl⟩

/-- The loop does not panic when every index it will use is in range: entered at index
`i` with `rs` left to do, each of the four arrays has at least `i + rs.length` slots. -/
theorem rangeLoop_isSome (rs : List RunResults) (s : LoopState) (i : Nat)
    (h1 : i + rs.length ≤ s.msgTimeMeans.length) (h2 : i + rs.length ≤ s.msgsPerSecs.length)
    (h3 : i + rs.length ≤ s.runTimes.length) (h4 : i + rs.length ≤ s.bws.length) :
    ∃ s', rangeLoop s i rs = some s' := by
  induction rs generalizing s i with
  | nil => exact ⟨s, rfl⟩
  | cons r rest ih =>
    simp only [List.length_cons] at h1 h2 h3 h4
    obtain ⟨next, hb⟩ := loopBody_isSome s i r (by omega) (by omega) (by omega) (by omega)
    obtain ⟨l1, l2, l3, l4⟩ := loopBody_lengths hb
    obtain ⟨s', hs'⟩ := ih next (i + 1) (by omega) (by omega) (by omega) (by omega)
    exact ⟨s', by simp only [rangeLoop, hb, hs']⟩

/-- On a non-empty list the loop does not panic, and the result is computed from the
state it ends in. -/
theorem calculateTotalResults_cons (stdDev : List F64 → F64) (r : RunResults)
    (rest : List RunResults) (totalTime : Int) :
    ∃ s', rangeLoop (initState (r :: rest) totalTime r) 0 (r :: rest) = some s' ∧
      calculateTotalResults stdDev (r :: rest) totalTime = some (finish stdDev s') := by
  obtain ⟨s', hs'⟩ := rangeLoop_isSome (r :: rest) (initState (r :: rest) totalTime r) 0
    (by simp [initState]) (by simp [initState]) (by simp [initState]) (by simp [initState])
  refine ⟨s', hs', ?_⟩
  simp only [calculateTotalResults, List.getElem?_cons_zero, hs']

theorem calculateTotalResults_nil (stdDev : List F64 → F64) (totalTime : Int) :
    calculateTotalResults stdDev [] totalTime = none := by
  simp [calculateTotalResults]

theorem finish_counts (stdDev : List F64 → F64) (s : LoopState) :
    (finish stdDev s).Successes = s.totals.Successes ∧
      (finish stdDev s).Failures = s.totals.Failures ∧
      (finish stdDev s).Total = s.totals.Total ∧
      (finish stdDev s).MsgTimeMin = s.totals.MsgTimeMin ∧
      (finish stdDev s).MsgTimeMax = s.totals.MsgTimeMax := by
  simp [finish]

theorem calculateTotalResults_counts (stdDev : List F64 → F64) (r : RunResults)
    (rest : List RunResults) (totalTime : Int) :
    ∃ t, calculateTotalResults stdDev (r :: rest) totalTime = some t ∧
      t.Successes = wrapInt64 (fieldSum RunResults.Successes (r :: rest)) ∧
      t.Failures = wrapInt64 (fieldSum RunResults.Failures (r :: rest)) ∧
      t.Total = wrapInt64 (fieldSum RunResults.Total (r :: rest)) := by
  obtain ⟨s', hs', hc⟩ := calculateTotalResults_cons stdDev r rest totalTime
  refine ⟨_, hc, ?_⟩
  obtain ⟨k1, k2, k3⟩ := rangeLoop_counts hs'
  have e1 : (initState (r :: rest) totalTime r).totals.Successes = 0 := by
    simp [initState, TotalResults.new]
  have e2 : (initState (r :: rest) totalTime r).totals.Failures = 0 := by
    simp [initState, TotalResults.new]
  have e3 : (initState (r :: rest) totalTime r).totals.Total = 0 := by
    simp [initState, TotalResults.new]
  rw [e1, foldl_add64_zero] at k1
  rw [e2, foldl_add64_zero] at k2
  rw [e3, foldl_add64_zero] at k3
  obtain ⟨f1, f2, f3, _, _⟩ := finish_counts stdDev s'
  rw [f1, f2, f3]
  exact ⟨k1, k2, k3⟩

theorem finish_Ratio (stdDev : List F64 → F64) (s : LoopState) :
    (finish stdDev s).Ratio =
      F64.div (F64.ofInt64 s.totals.Successes) (F64.ofInt64 s.totals.Total) := by
  simp [finish]

theorem calculateTotalResults_Ratio (stdDev : List F64 → F64) (results : List RunResults)
    (totalTime : Int) (t : TotalResults)
    (h : calculateTotalResults stdDev results totalTime = some t) :
    t.Ratio = F64.div (F64.ofInt64 t.Successes) (F64.ofInt64 t.Total) := by
  cases results with
  | nil => simp [calculateTotalResults] at h
  | cons r rest =>
    obtain ⟨s', _, hc⟩ := calculateTotalResults_cons stdDev r rest totalTime
    rw [hc] at h
    injection h with h
    subst h
    rw [finish_Ratio, (finish_counts _ _).1, (finish_counts _ _).2.2.1]

theorem sum_total_emod (rs : List RunResults)
    (h : ∀ r ∈ rs, r.Total = add64 r.Successes r.Failures) :
    fieldSum RunResults.Total rs % 2 ^ 64 =
      (fieldSum RunResults.Successes rs + fieldSum RunResults.Failures rs) % 2 ^ 64 := by
  induction rs with
  | nil => simp [fieldSum]
  | cons r rest ih =>
    have hr := h r (List.mem_cons_self _ _)
    have ih1 := ih (fun x hx => h x (List.mem_cons_of_mem _ hx))
    have hw := wrapInt64_emod (r.Successes + r.Failures)
    simp only [fieldSum, List.map_cons, List.sum_cons] at ih1 ⊢
    rw [hr]
    unfold add64
    omega

theorem fieldSum_eq_zero (f : RunResults → Int) (rs : List RunResults)
    (h : ∀ r ∈ rs, f r = 0) : fieldSum f rs = 0 := by
  induction rs with
  | nil => simp [fieldSum]
  | cons r rest ih =>
    have hr := h r (List.mem_cons_self _ _)
    have ih1 := ih (fun x hx => h x (List.mem_cons_of_mem _ hx))
    simp only [fieldSum, List.map_cons, List.sum_cons] at ih1 ⊢
    omega

theorem fieldSum_nonneg (f : RunResults → Int) (rs : List RunResults)
    (h : ∀ r ∈ rs, 0 ≤ f r) : 0 ≤ fieldSum f rs := by
  induction rs with
  | nil => simp [fieldSum]
  | cons r rest ih =>
    have hr := h r (List.mem_cons_self _ _)
    have ih1 := ih (fun x hx => h x (List.mem_cons_of_mem _ hx))
    simp only [fieldSum, List.map_cons, List.sum_cons] at ih1 ⊢
    omega

theorem fieldSum_total_eq (rs : List RunResults)
    (h : ∀ r ∈ rs, r.Total = r.Successes + r.Failures) :
    fieldSum RunResults.Total rs =
      fieldSum RunResults.Successes rs + fieldSum RunResults.Failures rs := by
  induction rs with
  | nil => simp [fieldSum]
  | cons r rest ih =>
    have hr := h r (List.mem_cons_self _ _)
    have ih1 := ih (fun x hx => h x (List.mem_cons_of_mem _ hx))
    simp only [fieldSum, List.map_cons, List.sum_cons] at ih1 ⊢
    omega

/-! ### the per-client arrays -/

theorem set_append_cons {α : Type} (pre post : List α) (x v : α) :
    (pre ++ x :: post).set pre.length v = pre ++ v :: post := by
  induction pre with
  | nil => rfl
  | cons a as ih => simp [List.set, ih]

theorem loopBody_arrays (s : LoopState) (r : RunResults) (post : List F64)
    (pre : List F64) (f : RunResults → F64) (arr : LoopState → List F64)
    (hset : ∀ (s₁ : LoopState) (i : Nat) (r₁ : RunResults) (s₂ : LoopState),
      loopBody s₁ i r₁ = some s₂ →
      arr s₂ = if r₁.Successes > 0 then (arr s₁).set i (f r₁) else arr s₁)
    (hs : arr s = pre ++ F64.zero :: post) (next : LoopState)
    (hb : loopBody s pre.length r = some next) :
    arr next = (pre ++ [slotOf f r]) ++ post := by
  rw [hset _ _ _ _ hb, hs]
  by_cases hr : r.Successes > 0
  · simp only [hr, if_true, slotOf, set_append_cons]
    simp
  · simp only [hr, if_false, slotOf]
    simp

theorem rangeLoop_arrays (f : RunResults → F64) (arr : LoopState → List F64)
    (hset : ∀ (s₁ : LoopState) (i : Nat) (r₁ : RunResults) (s₂ : LoopState),
      loopBody s₁ i r₁ = some s₂ →
      arr s₂ = if r₁.Successes > 0 then (arr s₁).set i (f r₁) else arr s₁)
    (rs : List RunResults) (s : LoopState) (pre : List F64)
    (hs : arr s = pre ++ List.replicate rs.length F64.zero) (s' : LoopState)
    (h : rangeLoop s pre.length rs = some s') :
    arr s' = pre ++ rs.map (slotOf f) := by
  induction rs generalizing s pre with
  | nil =>
    simp only [rangeLoop] at h
    obtain rfl := Option.some.inj h
    simpa using hs
  | cons r rest ih =>
    obtain ⟨next, hb, hrest⟩ := rangeLoop_cons_eq_some h
    have h1 := loopBody_arrays s r (List.replicate rest.length F64.zero) pre f arr hset
      (by simpa [List.replicate_succ] using hs) next hb
    have h2 := ih next (pre ++ [slotOf f r]) h1
      (by simpa only [List.length_append, List.length_singleton] using hrest)
    rw [h2]
    simp

theorem loopBody_runTimes (s : LoopState) (i : Nat) (r : RunResults) (s' : LoopState)
    (h : loopBody s i r = some s') :
    s'.runTimes = if r.Successes > 0 then s.runTimes.set i r.RunTime else s.runTimes :=
  (loopBody_eq_some h).2.2.2.1

theorem loopBody_msgTimeMeans (s : LoopState) (i : Nat) (r : RunResults) (s' : LoopState)
    (h : loopBody s i r = some s') :
    s'.msgTimeMeans =
      if r.Successes > 0 then s.msgTimeMeans.set i r.MsgTimeMean else s.msgTimeMeans :=
  (loopBody_eq_some h).2.1

theorem loopBody_msgsPerSecs (s : LoopState) (i : Nat) (r : RunResults) (s' : LoopState)
    (h : loopBody s i r = some s') :
    s'.msgsPerSecs =
      if r.Successes > 0 then s.msgsPerSecs.set i r.MsgsPerSec else s.msgsPerSecs :=
  (loopBody_eq_some h).2.2.1

/-- The three averages are means of the slot arrays the loop has filled. -/
theorem calculateTotalResults_means (stdDev : List F64 → F64) (results : List RunResults)
    (totalTime : Int) (hne : results ≠ []) :
    ∃ t, calculateTotalResults stdDev results totalTime = some t ∧
      t.AvgRunTime = StatsMean (results.map (slotOf RunResults.RunTime)) ∧
      t.MsgTimeMeanAvg = StatsMean (results.map (slotOf RunResults.MsgTimeMean)) ∧
      t.AvgMsgsPerSec = StatsMean (results.map (slotOf RunResults.MsgsPerSec)) := by
  cases results with
  | nil => exact absurd rfl hne
  | cons r rest =>
    obtain ⟨s', hs', hc⟩ := calculateTotalResults_cons stdDev r rest totalTime
    refine ⟨_, hc, ?_, ?_, ?_⟩
    · have h := rangeLoop_arrays RunResults.RunTime LoopState.runTimes loopBody_runTimes
        (r :: rest) (initState (r :: rest) totalTime r) [] (by simp [initState]) s' hs'
      simp only [List.nil_append] at h
      simp only [finish, h]
    · have h := rangeLoop_arrays RunResults.MsgTimeMean LoopState.msgTimeMeans
        loopBody_msgTimeMeans (r :: rest) (initState (r :: rest) totalTime r) []
        (by simp [initState]) s' hs'
      simp only [List.nil_append] at h
      simp only [finish, h]
    · have h := rangeLoop_arrays RunResults.MsgsPerSec LoopState.msgsPerSecs
        loopBody_msgsPerSecs (r :: rest) (initState (r :: rest) totalTime r) []
        (by simp [initState]) s' hs'
      simp only [List.nil_append] at h
      simp only [finish, h]

/-! ### the running extrema -/

theorem addCounts_extrema (t : TotalResults) (r : RunResults) :
    (addCounts t r).MsgTimeMax = t.MsgTimeMax ∧ (addCounts t r).MsgTimeMin = t.MsgTimeMin :=
  ⟨rfl, rfl⟩

theorem updateMax_max (t : TotalResults) (r : RunResults) :
    (updateMax t r).MsgTimeMax =
      if (r.MsgTimeMax.isNaN == false &&
          (t.MsgTimeMax.isNaN == true || F64.gt r.MsgTimeMax t.MsgTimeMax)) = true then
        r.MsgTimeMax
      else t.MsgTimeMax := by
  unfold updateMax
  split <;> rfl

theorem updateMin_min (t : TotalResults) (r : RunResults) :
    (updateMin t r).MsgTimeMin =
      if (r.MsgTimeMin.isNaN == false &&
          (t.MsgTimeMin.isNaN == true || F64.lt r.MsgTimeMin t.MsgTimeMin)) = true then
        r.MsgTimeMin
      else t.MsgTimeMin := by
  unfold updateMin
  split <;> rfl

theorem loopBody_extrema {s : LoopState} {i : Nat} {r : RunResults} {s' : LoopState}
    (h : loopBody s i r = some s') :
    s'.totals.MsgTimeMax = maxStep s.totals.MsgTimeMax r ∧
      s'.totals.MsgTimeMin = minStep s.totals.MsgTimeMin r := by
  rw [(loopBody_eq_some h).1]
  unfold maxStep minStep
  by_cases hr : r.Successes > 0
  · simp only [hr, if_true]
    constructor
    · rw [updateMax_max, (updateMin_counts _ _).2.2.2, (addCounts_extrema _ _).1]
    · rw [(updateMax_counts _ _).2.2.2, updateMin_min, (addCounts_extrema _ _).2]
  · simp only [hr, if_false]
    exact addCounts_extrema _ _

theorem rangeLoop_extrema {s : LoopState} {i : Nat} {rs : List RunResults} {s' : LoopState}
    (h : rangeLoop s i rs = some s') :
    s'.totals.MsgTimeMax = rs.foldl maxStep s.totals.MsgTimeMax ∧
      s'.totals.MsgTimeMin = rs.foldl minStep s.totals.MsgTimeMin := by
  induction rs generalizing s i with
  | nil =>
    simp only [rangeLoop] at h
    obtain rfl := Option.some.inj h
    simp
  | cons r rest ih =>
    obtain ⟨next, hb, hrest⟩ := rangeLoop_cons_eq_some h
    obtain ⟨h1, h2⟩ := loopBody_extrema hb
    obtain ⟨k1, k2⟩ := ih hrest
    simp only [List.foldl_cons]
    rw [k1, k2, h1, h2]
    exact ⟨rfl, rfl⟩

/-- The extrema of the result as folds over the list: the maximum starts from the zero
value, the minimum from `results[0].MsgTimeMin`. -/
theorem calculateTotalResults_extrema (stdDev : List F64 → F64) (r : RunResults)
    (rest : List RunResults) (totalTime : Int) :
    ∃ t, calculateTotalResults stdDev (r :: rest) totalTime = some t ∧
      t.MsgTimeMax = (r :: rest).foldl maxStep F64.zero ∧
      t.MsgTimeMin = (r :: rest).foldl minStep r.MsgTimeMin := by
  obtain ⟨s', hs', hc⟩ := calculateTotalResults_cons stdDev r rest totalTime
  refine ⟨_, hc, ?_⟩
  obtain ⟨k1, k2⟩ := rangeLoop_extrema hs'
  rw [(finish_counts _ _).2.2.2.1, (finish_counts _ _).2.2.2.2, k1, k2]
  simp [initState, TotalResults.new]

theorem foldl_maxStep_of_no_success (rs : List RunResults) (m : F64)
    (h : ∀ r ∈ rs, r.Successes = 0) : rs.foldl maxStep m = m := by
  induction rs generalizing m with
  | nil => rfl
  | cons r rest ih =>
    have hr := h r (List.mem_cons_self _ _)
    simp only [List.foldl_cons, maxStep, hr, gt_iff_lt, lt_self_iff_false, if_false]
    exact ih m (fun x hx => h x (List.mem_cons_of_mem _ hx))

theorem foldl_minStep_of_no_success (rs : List RunResults) (m : F64)
    (h : ∀ r ∈ rs, r.Successes = 0) : rs.foldl minStep m = m := by
  induction rs generalizing m with
  | nil => rfl
  | cons r rest ih =>
    have hr := h r (List.mem_cons_self _ _)
    simp only [List.foldl_cons, minStep, hr, gt_iff_lt, lt_self_iff_false, if_false]
    exact ih m (fun x hx => h x (List.mem_cons_of_mem _ hx))

theorem lt_antisymm_eq (x y : F64) (hx : x.isNaN = false) (hy : y.isNaN = false)
    (h1 : F64.lt x y = false) (h2 : F64.lt y x = false) : x = y := by
  cases x <;> cases y <;> simp_all [F64.lt, F64.isNaN]
  omega

theorem lt_asymm_f64 (x y : F64) (h : F64.lt x y = true) : F64.lt y x = false := by
  cases x <;> cases y <;> simp_all [F64.lt]
  omega

theorem lt_trans_f64 (x y z : F64) (h1 : F64.lt x y = true) (h2 : F64.lt y z = true) :
    F64.lt x z = true := by
  cases x <;> cases y <;> cases z <;> simp_all [F64.lt]
  omega

theorem foldl_maxStep_eq (rs : List RunResults) (m : F64) :
    rs.foldl maxStep m = ((successful rs).map RunResults.MsgTimeMax).foldl (pick F64.gt) m := by
  induction rs generalizing m with
  | nil => rfl
  | cons r rest ih =>
    by_cases hr : r.Successes > 0
    · simp only [List.foldl_cons, successful, List.filter_cons, hr, decide_True, if_true,
        List.map_cons, maxStep, pick]
      exact ih _
    · simp only [List.foldl_cons, successful, List.filter_cons, hr, decide_False, if_false,
        maxStep]
      exact ih _

theorem foldl_minStep_eq (rs : List RunResults) (m : F64) :
    rs.foldl minStep m = ((successful rs).map RunResults.MsgTimeMin).foldl (pick F64.lt) m := by
  induction rs generalizing m with
  | nil => rfl
  | cons r rest ih =>
    by_cases hr : r.Successes > 0
    · simp only [List.foldl_cons, successful, List.filter_cons, hr, decide_True, if_true,
        List.map_cons, minStep, pick]
      exact ih _
    · simp only [List.foldl_cons, successful, List.filter_cons, hr, decide_False, if_false,
        minStep]
      exact ih _

theorem pick_of_nan (better : F64 → F64 → Bool) (m x : F64) (hx : x.isNaN = true) :
    pick better m x = m := by
  simp [pick, hx]

theorem pick_nan_of_number (better : F64 → F64 → Bool) (m x : F64) (hx : x.isNaN = false)
    (hm : m.isNaN = true) : pick better m x = x := by
  simp [pick, hx, hm]

theorem pick_number_of_number (better : F64 → F64 → Bool) (m x : F64) (hx : x.isNaN = false)
    (hm : m.isNaN = false) : pick better m x = if better x m then x else m := by
  simp [pick, hx, hm]

/-- Folding `pick` from a number `m` returns a number of `m :: xs` that no number of
`m :: xs` beats, provided `better` is a strict total order on the numbers. -/
theorem foldl_pick_of_number (better : F64 → F64 → Bool)
    (hirr : ∀ a, better a a = false)
    (htrans : ∀ a b c, better a b = true → better b c = true → better a c = true)
    (htri : ∀ a b, a.isNaN = false → b.isNaN = false →
      better a b = true ∨ a = b ∨ better b a = true)
    (xs : List F64) (m : F64) (hm : m.isNaN = false) :
    (xs.foldl (pick better) m).isNaN = false ∧
      (xs.foldl (pick better) m = m ∨
        xs.foldl (pick better) m ∈ xs.filter (fun x => x.isNaN == false)) ∧
      better m (xs.foldl (pick better) m) = false ∧
      ∀ v ∈ xs.filter (fun x => x.isNaN == false),
        better v (xs.foldl (pick better) m) = false := by
  induction xs generalizing m with
  | nil => exact ⟨hm, Or.inl rfl, hirr m, fun v hv => by simp at hv⟩
  | cons x xs ih =>
    cases hx : x.isNaN with
    | true =>
      simp only [List.foldl_cons, pick_of_nan better m x hx, List.filter_cons, hx,
        Bool.true_eq_false, beq_iff_eq, if_false]
      exact ih m hm
    | false =>
      simp only [List.foldl_cons, pick_number_of_number better m x hx hm, List.filter_cons, hx,
        beq_self_eq_true, if_true]
      cases hb : better x m with
      | true =>
        simp only [if_true]
        obtain ⟨h1, h2, h3, h4⟩ := ih x hx
        refine ⟨h1, Or.inr ?_, ?_, ?_⟩
        · rcases h2 with h2 | h2
          · rw [h2]; exact List.mem_cons_self _ _
          · exact List.mem_cons_of_mem _ h2
        · cases hc : better m (List.foldl (pick better) x xs) with
          | false => rfl
          | true => rw [htrans _ _ _ hb hc] at h3; exact absurd h3 (by simp)
        · intro v hv
          rcases List.mem_cons.1 hv with rfl | hv
          · exact h3
          · exact h4 v hv
      | false =>
        simp only [Bool.false_eq_true, if_false]
        obtain ⟨h1, h2, h3, h4⟩ := ih m hm
        refine ⟨h1, ?_, h3, ?_⟩
        · rcases h2 with h2 | h2
          · exact Or.inl h2
          · exact Or.inr (List.mem_cons_of_mem _ h2)
        · intro v hv
          rcases List.mem_cons.1 hv with rfl | hv
          · cases hc : better v (List.foldl (pick better) m xs) with
            | false => rfl
            | true =>
              rcases htri v m hx hm with h | h | h
              · rw [h] at hb; exact absurd hb (by simp)
              · rw [h] at hc; rw [hc] at h3; exact absurd h3 (by simp)
              · rw [htrans _ _ _ h hc] at h3; exact absurd h3 (by simp)
          · exact h4 v hv

/-- Folding `pick` from NaN: NaN stays while no number is met; otherwise the result is a
number of `xs` that no number of `xs` beats. -/
theorem foldl_pick_of_nan (better : F64 → F64 → Bool)
    (hirr : ∀ a, better a a = false)
    (htrans : ∀ a b c, better a b = true → better b c = true → better a c = true)
    (htri : ∀ a b, a.isNaN = false → b.isNaN = false →
      better a b = true ∨ a = b ∨ better b a = true)
    (xs : List F64) (m : F64) (hm : m.isNaN = true) :
    (xs.filter (fun x => x.isNaN == false) = [] → xs.foldl (pick better) m = m) ∧
      (xs.filter (fun x => x.isNaN == false) ≠ [] →
        (xs.foldl (pick better) m).isNaN = false ∧
        xs.foldl (pick better) m ∈ xs.filter (fun x => x.isNaN == false) ∧
        ∀ v ∈ xs.filter (fun x => x.isNaN == false),
          better v (xs.foldl (pick better) m) = false) := by
  induction xs with
  | nil => exact ⟨fun _ => rfl, fun h => absurd rfl h⟩
  | cons x xs ih =>
    cases hx : x.isNaN with
    | true =>
      simp only [List.foldl_cons, pick_of_nan better m x hx, List.filter_cons, hx,
        Bool.true_eq_false, beq_iff_eq, if_false]
      exact ih
    | false =>
      simp only [List.foldl_cons, pick_nan_of_number better m x hx hm, List.filter_cons, hx,
        beq_self_eq_true, if_true]
      obtain ⟨h1, h2, h3, h4⟩ := foldl_pick_of_number better hirr htrans htri xs x hx
      refine ⟨fun h => absurd h (by simp), fun _ => ⟨h1, ?_, ?_⟩⟩
      · rcases h2 with h2 | h2
        · rw [h2]; exact List.mem_cons_self _ _
        · exact List.mem_cons_of_mem _ h2
      · intro v hv
        rcases List.mem_cons.1 hv with rfl | hv
        · exact h3
        · exact h4 v hv

theorem lt_irrefl_f64 (a : F64) : F64.lt a a = false := by
  cases a <;> simp [F64.lt]

theorem lt_trichotomy_f64 (a b : F64) (ha : a.isNaN = false) (hb : b.isNaN = false) :
    F64.lt a b = true ∨ a = b ∨ F64.lt b a = true := by
  cases h1 : F64.lt a b with
  | true => exact Or.inl rfl
  | false =>
    cases h2 : F64.lt b a with
    | true => exact Or.inr (Or.inr rfl)
    | false => exact Or.inr (Or.inl (lt_antisymm_eq a b ha hb h1 h2))

theorem gt_trichotomy_f64 (a b : F64) (ha : a.isNaN = false) (hb : b.isNaN = false) :
    F64.gt a b = true ∨ a = b ∨ F64.gt b a = true := by
  rcases lt_trichotomy_f64 a b ha hb with h | h | h
  · exact Or.inr (Or.inr h)
  · exact Or.inr (Or.inl h)
  · exact Or.inl h

/-- `MsgTimeMax` of the result is never NaN and is the greatest of `0` and the
candidates: it is one of them, and none of them is greater. -/
theorem calculateTotalResults_max_spec (stdDev : List F64 → F64) (r : RunResults)
    (rest : List RunResults) (totalTime : Int) :
    ∃ t, calculateTotalResults stdDev (r :: rest) totalTime = some t ∧
      t.MsgTimeMax.isNaN = false ∧
      (t.MsgTimeMax = F64.zero ∨
        t.MsgTimeMax ∈ candidates RunResults.MsgTimeMax (r :: rest)) ∧
      F64.gt F64.zero t.MsgTimeMax = false ∧
      ∀ v ∈ candidates RunResults.MsgTimeMax (r :: rest), F64.gt v t.MsgTimeMax = false := by
  obtain ⟨t, ht, hmax, _⟩ := calculateTotalResults_extrema stdDev r rest totalTime
  refine ⟨t, ht, ?_⟩
  rw [hmax, foldl_maxStep_eq]
  exact foldl_pick_of_number F64.gt (fun a => lt_irrefl_f64 a)
    (fun a b c h1 h2 => lt_trans_f64 c b a h2 h1) gt_trichotomy_f64 _ F64.zero rfl

/-- `MsgTimeMin` of the result when the seed `results[0].MsgTimeMin` is a number: the
least of the seed and the candidates. -/
theorem calculateTotalResults_min_of_number_seed (stdDev : List F64 → F64) (r : RunResults)
    (rest : List RunResults) (totalTime : Int) (hseed : r.MsgTimeMin.isNaN = false) :
    ∃ t, calculateTotalResults stdDev (r :: rest) totalTime = some t ∧
      t.MsgTimeMin.isNaN = false ∧
      (t.MsgTimeMin = r.MsgTimeMin ∨
        t.MsgTimeMin ∈ candidates RunResults.MsgTimeMin (r :: rest)) ∧
      F64.lt r.MsgTimeMin t.MsgTimeMin = false ∧
      ∀ v ∈ candidates RunResults.MsgTimeMin (r :: rest), F64.lt v t.MsgTimeMin = false := by
  obtain ⟨t, ht, _, hmin⟩ := calculateTotalResults_extrema stdDev r rest totalTime
  refine ⟨t, ht, ?_⟩
  rw [hmin, foldl_minStep_eq]
  exact foldl_pick_of_number F64.lt lt_irrefl_f64 lt_trans_f64 lt_trichotomy_f64 _ _ hseed

/-- `MsgTimeMin` of the result when the seed `results[0].MsgTimeMin` is NaN: NaN when
there is no candidate, the least candidate otherwise. -/
theorem calculateTotalResults_min_of_nan_seed (stdDev : List F64 → F64) (r : RunResults)
    (rest : List RunResults) (totalTime : Int) (hseed : r.MsgTimeMin.isNaN = true) :
    ∃ t, calculateTotalResults stdDev (r :: rest) totalTime = some t ∧
      (candidates RunResults.MsgTimeMin (r :: rest) = [] → t.MsgTimeMin = r.MsgTimeMin) ∧
      (candidates RunResults.MsgTimeMin (r :: rest) ≠ [] →
        t.MsgTimeMin.isNaN = false ∧
        t.MsgTimeMin ∈ candidates RunResults.MsgTimeMin (r :: rest) ∧
        ∀ v ∈ candidates RunResults.MsgTimeMin (r :: rest),
          F64.lt v t.MsgTimeMin = false) := by
  obtain ⟨t, ht, _, hmin⟩ := calculateTotalResults_extrema stdDev r rest totalTime
  refine ⟨t, ht, ?_⟩
  rw [hmin, foldl_minStep_eq]
  exact foldl_pick_of_nan F64.lt lt_irrefl_f64 lt_trans_f64 lt_trichotomy_f64 _ _ hseed

theorem candidates_perm (f : RunResults → F64) {l1 l2 : List RunResults}
    (h : List.Perm l1 l2) (v : F64) : v ∈ candidates f l1 ↔ v ∈ candidates f l2 :=
  (((h.filter _).map f).filter _).mem_iff

/-- The counters and `MsgTimeMax` do not depend on the order of the results. -/
theorem calculateTotalResults_perm (stdDev : List F64 → F64) (l1 l2 : List RunResults)
    (totalTime : Int) (h : List.Perm l1 l2) (hne : l1 ≠ []) :
    ∃ t1 t2, calculateTotalResults stdDev l1 totalTime = some t1 ∧
      calculateTotalResults stdDev l2 totalTime = some t2 ∧
      t1.Successes = t2.Successes ∧ t1.Failures = t2.Failures ∧ t1.Total = t2.Total ∧
      t1.MsgTimeMax = t2.MsgTimeMax := by
  cases l1 with
  | nil => exact absurd rfl hne
  | cons a as =>
    cases l2 with
    | nil => exact absurd h.length_eq (by simp)
    | cons b bs =>
      obtain ⟨t1, ht1, s1, f1, c1⟩ := calculateTotalResults_counts stdDev a as totalTime
      obtain ⟨t2, ht2, s2, f2, c2⟩ := calculateTotalResults_counts stdDev b bs totalTime
      obtain ⟨u1, hu1, n1, m1, z1, g1⟩ := calculateTotalResults_max_spec stdDev a as totalTime
      obtain ⟨u2, hu2, n2, m2, z2, g2⟩ := calculateTotalResults_max_spec stdDev b bs totalTime
      rw [ht1] at hu1
      rw [ht2] at hu2
      obtain rfl := Option.some.inj hu1
      obtain rfl := Option.some.inj hu2
      refine ⟨t1, t2, ht1, ht2, ?_, ?_, ?_, ?_⟩
      · rw [s1, s2]; unfold fieldSum; rw [(h.map _).sum_eq]
      · rw [f1, f2]; unfold fieldSum; rw [(h.map _).sum_eq]
      · rw [c1, c2]; unfold fieldSum; rw [(h.map _).sum_eq]
      · have k12 : F64.gt t2.MsgTimeMax t1.MsgTimeMax = false := by
          rcases m2 with e | e
          · rw [e]; exact z1
          · exact g1 _ ((candidates_perm _ h _).2 e)
        have k21 : F64.gt t1.MsgTimeMax t2.MsgTimeMax = false := by
          rcases m1 with e | e
          · rw [e]; exact z2
          · exact g2 _ ((candidates_perm _ h _).1 e)
        exact lt_antisymm_eq _ _ n1 n2 k12 k21

/-- When `results[0]` has a success or a NaN `MsgTimeMin`, and some client qualifies,
`MsgTimeMin` of the result is the least candidate: the minimum of `MsgTimeMin` over the
clients with `Successes > 0` and a non-NaN `MsgTimeMin`. -/
theorem msgTimeMin_least_candidate_of_benign_seed (stdDev : List F64 → F64)
    (r : RunResults) (rest : List RunResults) (totalTime : Int)
    (hseed : r.Successes > 0 ∨ r.MsgTimeMin.isNaN = true)
    (hcand : candidates RunResults.MsgTimeMin (r :: rest) ≠ []) :
    ∃ t, calculateTotalResults stdDev (r :: rest) totalTime = some t ∧
      t.MsgTimeMin ∈ candidates RunResults.MsgTimeMin (r :: rest) ∧
      ∀ v ∈ candidates RunResults.MsgTimeMin (r :: rest), F64.lt v t.MsgTimeMin = false := by
  cases hn : r.MsgTimeMin.isNaN with
  | true =>
    obtain ⟨t, ht, _, h⟩ := calculateTotalResults_min_of_nan_seed stdDev r rest totalTime hn
    exact ⟨t, ht, (h hcand).2⟩
  | false =>
    obtain ⟨t, ht, _, h1, _, h3⟩ :=
      calculateTotalResults_min_of_number_seed stdDev r rest totalTime hn
    have hs : r.Successes > 0 := by
      rcases hseed with h | h
      · exact h
      · rw [hn] at h; exact absurd h (by simp)
    have hmem : r.MsgTimeMin ∈ candidates RunResults.MsgTimeMin (r :: rest) := by
      simp only [candidates, successful, List.filter_cons, hs, decide_True, if_true,
        List.map_cons, hn, beq_self_eq_true]
      exact List.mem_cons_self _ _
    refine ⟨t, ht, ?_, h3⟩
    rcases h1 with h1 | h1
    · rw [h1]; exact hmem
    · exact h1

/-- When no client has a success, the loop leaves both extrema as they were before it:
`MsgTimeMin` is `results[0].MsgTimeMin` and `MsgTimeMax` is `0`. -/
theorem extrema_of_no_success (stdDev : List F64 → F64) (r : RunResults)
    (rest : List RunResults) (totalTime : Int) (h : ∀ x ∈ r :: rest, x.Successes = 0) :
    ∃ t, calculateTotalResults stdDev (r :: rest) totalTime = some t ∧
      t.MsgTimeMin = r.MsgTimeMin ∧ t.MsgTimeMax = F64.zero := by
  obtain ⟨t, ht, hmax, hmin⟩ := calculateTotalResults_extrema stdDev r rest totalTime
  refine ⟨t, ht, ?_, ?_⟩
  · rw [hmin, foldl_minStep_of_no_success _ _ h]
  · rw [hmax, foldl_maxStep_of_no_success _ _ h]

theorem calculateTotalResults_counts_of_ne (stdDev : List F64 → F64)
    (results : List RunResults) (totalTime : Int) (hne : results ≠ []) :
    ∃ t, calculateTotalResults stdDev results totalTime = some t ∧
      t.Successes = wrapInt64 (fieldSum RunResults.Successes results) ∧
      t.Failures = wrapInt64 (fieldSum RunResults.Failures results) ∧
      t.Total = wrapInt64 (fieldSum RunResults.Total results) := by
  cases results with
  | nil => exact absurd rfl hne
  | cons r rest => exact calculateTotalResults_counts stdDev r rest totalTime

/-! ### `main` -/

theorem calculateTotalResults_eq_none_iff (stdDev : List F64 → F64)
    (results : List RunResults) (totalTime : Int) :
    calculateTotalResults stdDev results totalTime = none ↔ results = [] := by
  cases results with
  | nil => simp [calculateTotalResults_nil]
  | cons r rest =>
    obtain ⟨s', _, hc⟩ := calculateTotalResults_cons stdDev r rest totalTime
    simp [hc]

theorem derefAll_of_no_nil (ptrs : List (Option RunResults)) (h : ∀ p ∈ ptrs, p ≠ none) :
    ∃ results, derefAll ptrs = some results ∧ results.length = ptrs.length := by
  induction ptrs with
  | nil => exact ⟨[], rfl, rfl⟩
  | cons p rest ih =>
    obtain ⟨rs, hrs, hlen⟩ := ih (fun q hq => h q (List.mem_cons_of_mem _ hq))
    cases p with
    | none => exact absurd rfl (h none (List.mem_cons_self _ _))
    | some r => exact ⟨r :: rs, by simp [derefAll, hrs], by simp [hlen]⟩

theorem derefAll_eq_none_of_nil (ptrs : List (Option RunResults)) (h : none ∈ ptrs) :
    derefAll ptrs = none := by
  induction ptrs with
  | nil => simp at h
  | cons p rest ih =>
    cases p with
    | none => rfl
    | some r =>
      have hr : none ∈ rest := by simpa using h
      simp [derefAll, ih hr]

theorem calculateTotalResultsPtr_eq_none_iff (stdDev : List F64 → F64)
    (ptrs : List (Option RunResults)) (totalTime : Int) (h : ∀ p ∈ ptrs, p ≠ none) :
    calculateTotalResultsPtr stdDev ptrs totalTime = none ↔ ptrs = [] := by
  obtain ⟨rs, hrs, hlen⟩ := derefAll_of_no_nil ptrs h
  simp only [calculateTotalResultsPtr, hrs, calculateTotalResults_eq_none_iff]
  constructor
  · intro e
    rw [e] at hlen
    exact List.length_eq_zero.1 hlen.symm
  · intro e
    rw [e] at hlen
    exact List.length_eq_zero.1 hlen

theorem setPointer_append_cons (pre post : List (Option RunResults))
    (x p : Option RunResults) :
    setPointer (pre ++ x :: post) pre.length p = some (pre ++ p :: post) := by
  simp [setPointer, set_append_cons]

/-- Invariant of the collection loop: entered at index `i` with the first `i` slots
filled with non-nil pointers and the other `n` slots nil, it can only end `done` with
all `i + n` slots filled with non-nil pointers, it never panics on the indexed write
(a panic is the nil dereference of line 115), and it blocks only on a receive that
never returns. -/
theorem collectLoop_spec (resCh : Nat → Received) (n : Nat) (pre : List (Option RunResults))
    (hpre : ∀ p ∈ pre, p ≠ none) :
    (∀ out, collectLoop resCh n pre.length (pre ++ List.replicate n none) =
        Collected.done out →
      out.length = pre.length + n ∧ ∀ p ∈ out, p ≠ none) ∧
    (∀ j, collectLoop resCh n pre.length (pre ++ List.replicate n none) =
        Collected.panicked j → resCh j = Received.pointer none) ∧
    (∀ j, collectLoop resCh n pre.length (pre ++ List.replicate n none) =
        Collected.blocked j → resCh j = Received.never) ∧
    ((∀ j, pre.length ≤ j → j < pre.length + n → ∃ r, resCh j = Received.pointer (some r)) →
      ∃ out, collectLoop resCh n pre.length (pre ++ List.replicate n none) =
        Collected.done out) := by
  induction n generalizing pre with
  | zero =>
    simp only [collectLoop, List.replicate_zero, List.append_nil]
    refine ⟨?_, ?_, ?_, ?_⟩
    · intro out h
      obtain rfl := Collected.done.inj h
      exact ⟨rfl, hpre⟩
    · intro j h; exact absurd h (by simp)
    · intro j h; exact absurd h (by simp)
    · intro _; exact ⟨pre, rfl⟩
  | succ n ih =>
    simp only [collectLoop, List.replicate_succ]
    cases hrecv : resCh pre.length with
    | never =>
      refine ⟨?_, ?_, ?_, ?_⟩
      · intro out h; exact absurd h (by simp)
      · intro j h; exact absurd h (by simp)
      · intro j h
        obtain rfl := Collected.blocked.inj h
        exact hrecv
      · intro hall
        obtain ⟨r, hr⟩ := hall pre.length le_rfl (by omega)
        rw [hrecv] at hr
        exact absurd hr (by simp)
    | pointer p =>
      simp only [setPointer_append_cons]
      have hget : (pre ++ p :: List.replicate n none)[pre.length]? = some p := by
        rw [List.getElem?_append_right (le_refl _)]
        simp
      rw [hget]
      cases p with
      | none =>
        refine ⟨?_, ?_, ?_, ?_⟩
        · intro out h; exact absurd h (by simp)
        · intro j h
          obtain rfl := Collected.panicked.inj h
          exact hrecv
        · intro j h; exact absurd h (by simp)
        · intro hall
          obtain ⟨r, hr⟩ := hall pre.length le_rfl (by omega)
          rw [hrecv] at hr
          exact absurd hr (by simp)
      | some r =>
        have hpre' : ∀ q ∈ pre ++ [some r], q ≠ none := by
          intro q hq
          rcases List.mem_append.1 hq with hq | hq
          · exact hpre q hq
          · simp at hq; rw [hq]; simp
        have hshape : pre ++ some r :: List.replicate n none =
            (pre ++ [some r]) ++ List.replicate n none := by simp
        have hlen : (pre ++ [some r]).length = pre.length + 1 := by simp
        obtain ⟨i1, i2, i3, i4⟩ := ih (pre ++ [some r]) hpre'
        rw [hlen, ← hshape] at i1 i2 i3 i4
        refine ⟨?_, i2, i3, ?_⟩
        · intro out h
          obtain ⟨h1, h2⟩ := i1 out h
          exact ⟨by omega, h2⟩
        · intro hall
          exact i4 (fun j hj1 hj2 => hall j (by omega) (by omega))

/-- The ways `main` can end, and what each of them says about the run. -/
theorem main_spec (stdDev : List F64 → F64) (clients : Int) (resCh : Nat → Received)
    (totalTime : Int) :
    (main stdDev clients resCh totalTime = Outcome.fatal ↔ clients < 1) ∧
    (∀ started results,
      main stdDev clients resCh totalTime ≠ Outcome.panickedInTotals started results) ∧
    (∀ started results totals,
      main stdDev clients resCh totalTime = Outcome.completed started results totals →
      1 ≤ clients ∧ (results.length : Int) = clients ∧ started = results.length ∧
        (∀ p ∈ results, p ≠ none) ∧
        calculateTotalResultsPtr stdDev results totalTime = some totals) ∧
    (∀ started j, main stdDev clients resCh totalTime = Outcome.panicked started j →
      resCh j = Received.pointer none) ∧
    (∀ started j, main stdDev clients resCh totalTime = Outcome.blocked started j →
      resCh j = Received.never) ∧
    (1 ≤ clients → (∀ j, j < clients.toNat → ∃ r, resCh j = Received.pointer (some r)) →
      ∃ results totals, main stdDev clients resCh totalTime =
        Outcome.completed clients.toNat results totals) := by
  by_cases hc : clients < 1
  · have hm : main stdDev clients resCh totalTime = Outcome.fatal := by simp [main, hc]
    rw [hm]
    refine ⟨⟨fun _ => hc, fun _ => rfl⟩, ?_, ?_, ?_, ?_, ?_⟩
    · intro a b h; exact absurd h (by simp)
    · intro a b c h; exact absurd h (by simp)
    · intro a b h; exact absurd h (by simp)
    · intro a b h; exact absurd h (by simp)
    · intro h1; omega
  · obtain ⟨s1, s2, s3, s4⟩ := collectLoop_spec resCh clients.toNat [] (by simp)
    simp only [List.length_nil, List.nil_append, Nat.zero_add] at s1 s2 s3 s4
    cases hcl : collectLoop resCh clients.toNat 0 (List.replicate clients.toNat none) with
    | blocked j =>
      have hm : main stdDev clients resCh totalTime = Outcome.blocked clients.toNat j := by
        simp [main, hc, hcl]
      rw [hm]
      refine ⟨⟨fun h => absurd h (by simp), fun h => absurd h hc⟩, ?_, ?_, ?_, ?_, ?_⟩
      · intro a b h; exact absurd h (by simp)
      · intro a b c h; exact absurd h (by simp)
      · intro a b h; exact absurd h (by simp)
      · intro a b h
        obtain ⟨_, rfl⟩ := Outcome.blocked.inj h
        exact s3 j hcl
      · intro _ hall
        obtain ⟨out, hout⟩ := s4 (fun j _ hj => hall j hj)
        rw [hcl] at hout
        exact absurd hout (by simp)
    | panicked j =>
      have hm : main stdDev clients resCh totalTime = Outcome.panicked clients.toNat j := by
        simp [main, hc, hcl]
      rw [hm]
      refine ⟨⟨fun h => absurd h (by simp), fun h => absurd h hc⟩, ?_, ?_, ?_, ?_, ?_⟩
      · intro a b h; exact absurd h (by simp)
      · intro a b c h; exact absurd h (by simp)
      · intro a b h
        obtain ⟨_, rfl⟩ := Outcome.panicked.inj h
        exact s2 j hcl
      · intro a b h; exact absurd h (by simp)
      · intro _ hall
        obtain ⟨out, hout⟩ := s4 (fun j _ hj => hall j hj)
        rw [hcl] at hout
        exact absurd hout (by simp)
    | done results =>
      obtain ⟨hlen, hnn⟩ := s1 results hcl
      have hpos : 0 < clients.toNat := by omega
      have hne : results ≠ [] := by
        intro e
        rw [e] at hlen
        simp at hlen
        omega
      cases hcalc : calculateTotalResultsPtr stdDev results totalTime with
      | none => exact absurd ((calculateTotalResultsPtr_eq_none_iff _ _ _ hnn).1 hcalc) hne
      | some totals =>
        have hm : main stdDev clients resCh totalTime =
            Outcome.completed clients.toNat results totals := by
          simp [main, hc, hcl, hcalc]
        rw [hm]
        refine ⟨⟨fun h => absurd h (by simp), fun h => absurd h hc⟩, ?_, ?_, ?_, ?_, ?_⟩
        · intro a b h; exact absurd h (by simp)
        · intro a b c h
          obtain ⟨rfl, rfl, rfl⟩ := Outcome.completed.inj h
          exact ⟨by omega, by omega, hlen.symm, hnn, hcalc⟩
        · intro a b h; exact absurd h (by simp)
        · intro a b h; exact absurd h (by simp)
        · intro _ _; exact ⟨results, totals, rfl⟩

/-! ## The claims -/

/-- C1, the code at the failing input: client 0 failed to connect (all fields zero),
client 1 delivered 5 of 5 messages with `MsgTimeMin = 3`.  Line 132 seeds the running
minimum with client 0's `MsgTimeMin = 0` although that client has no success, and `3 < 0`
is false, so the result is `0` and not the `3` of the only successful client.
The first part delimits the defect: whenever `results[0]` has a success or a NaN
`MsgTimeMin`, the result is the minimum over the clients with `Successes > 0` and a
non-NaN `MsgTimeMin`. -/
theorem msgTimeMin_keeps_seed_of_failed_client (stdDev : List F64 → F64) :
    (∀ (r : RunResults) (rest : List RunResults) (totalTime : Int),
      (r.Successes > 0 ∨ r.MsgTimeMin.isNaN = true) →
      candidates RunResults.MsgTimeMin (r :: rest) ≠ [] →
      ∃ t, calculateTotalResults stdDev (r :: rest) totalTime = some t ∧
        t.MsgTimeMin ∈ candidates RunResults.MsgTimeMin (r :: rest) ∧
        ∀ v ∈ candidates RunResults.MsgTimeMin (r :: rest),
          F64.lt v t.MsgTimeMin = false) ∧
    ∃ t, calculateTotalResults stdDev [failedClient, goodClient] 0 = some t ∧
      failedClient.Successes = 0 ∧ goodClient.Successes = 5 ∧
      goodClient.MsgTimeMin = F64.ofInt64 3 ∧
      t.MsgTimeMin = F64.zero ∧ t.MsgTimeMin ≠ goodClient.MsgTimeMin := by
  refine ⟨fun r rest totalTime h1 h2 =>
    msgTimeMin_least_candidate_of_benign_seed stdDev r rest totalTime h1 h2, ?_⟩
  obtain ⟨t, ht, _, hmin⟩ := calculateTotalResults_extrema stdDev failedClient [goodClient] 0
  refine ⟨t, ht, rfl, rfl, rfl, ?_⟩
  rw [hmin]
  decide!

/-- C2, the code at two failing inputs, each a list whose only client has
`Successes = 0`.  For a client that failed to connect (all fields zero) the result has
`MsgTimeMin = 0` and `MsgTimeMax = 0`; for a client whose publishes all failed (its own
minimum and maximum are NaN) the result has `MsgTimeMin = NaN` but `MsgTimeMax = 0`.
The first part is the general behaviour: when no client has a success, `MsgTimeMin` is
`results[0].MsgTimeMin` and `MsgTimeMax` is the zero value it started with. -/
theorem extrema_of_failed_clients_not_nan (stdDev : List F64 → F64) :
    (∀ (r : RunResults) (rest : List RunResults) (totalTime : Int),
      (∀ x ∈ r :: rest, x.Successes = 0) →
      ∃ t, calculateTotalResults stdDev (r :: rest) totalTime = some t ∧
        t.MsgTimeMin = r.MsgTimeMin ∧ t.MsgTimeMax = F64.zero) ∧
    (∃ t, calculateTotalResults stdDev [failedClient] 0 = some t ∧
      failedClient.Successes = 0 ∧
      t.MsgTimeMin = F64.zero ∧ t.MsgTimeMax = F64.zero ∧
      t.MsgTimeMin.isNaN = false ∧ t.MsgTimeMax.isNaN = false) ∧
    (∃ t, calculateTotalResults stdDev [noSuccessClient] 0 = some t ∧
      noSuccessClient.Successes = 0 ∧
      t.MsgTimeMin = F64.nan ∧ t.MsgTimeMax = F64.zero ∧ t.MsgTimeMax.isNaN = false) := by
  refine ⟨fun r rest totalTime h => extrema_of_no_success stdDev r rest totalTime h, ?_, ?_⟩
  · obtain ⟨t, ht, hmax, hmin⟩ := calculateTotalResults_extrema stdDev failedClient [] 0
    refine ⟨t, ht, rfl, ?_⟩
    rw [hmax, hmin]
    decide!
  · obtain ⟨t, ht, hmax, hmin⟩ := calculateTotalResults_extrema stdDev noSuccessClient [] 0
    refine ⟨t, ht, rfl, ?_⟩
    rw [hmax, hmin]
    decide!

/-- C3: for a non-empty list, `Successes`, `Failures` and `Total` of the result are the
`int64` sums of the same-named fields over the whole list, every client counted once,
successful or not: the running `add64` sum, which is the exact sum reduced to `int64`. -/
theorem counts_are_field_sums (stdDev : List F64 → F64) (results : List RunResults)
    (totalTime : Int) (hne : results ≠ []) :
    ∃ t, calculateTotalResults stdDev results totalTime = some t ∧
      t.Successes = (results.map RunResults.Successes).foldl add64 0 ∧
      t.Failures = (results.map RunResults.Failures).foldl add64 0 ∧
      t.Total = (results.map RunResults.Total).foldl add64 0 ∧
      t.Successes = wrapInt64 (fieldSum RunResults.Successes results) ∧
      t.Failures = wrapInt64 (fieldSum RunResults.Failures results) ∧
      t.Total = wrapInt64 (fieldSum RunResults.Total results) := by
  obtain ⟨t, ht, h1, h2, h3⟩ := calculateTotalResults_counts_of_ne stdDev results totalTime hne
  refine ⟨t, ht, ?_, ?_, ?_, h1, h2, h3⟩
  · rw [h1, foldl_add64_zero]; rfl
  · rw [h2, foldl_add64_zero]; rfl
  · rw [h3, foldl_add64_zero]; rfl

/-- C3, witness: one failed and one successful client. -/
theorem counts_are_field_sums_witness :
    [failedClient, goodClient] ≠ [] ∧
    ∃ t, calculateTotalResults sampleStdDev [failedClient, goodClient] 0 = some t ∧
      t.Successes = (([failedClient, goodClient] : List RunResults).map
        RunResults.Successes).foldl add64 0 ∧
      t.Failures = (([failedClient, goodClient] : List RunResults).map
        RunResults.Failures).foldl add64 0 ∧
      t.Total = (([failedClient, goodClient] : List RunResults).map
        RunResults.Total).foldl add64 0 ∧
      t.Successes = wrapInt64 (fieldSum RunResults.Successes [failedClient, goodClient]) ∧
      t.Failures = wrapInt64 (fieldSum RunResults.Failures [failedClient, goodClient]) ∧
      t.Total = wrapInt64 (fieldSum RunResults.Total [failedClient, goodClient]) :=
  ⟨by simp, counts_are_field_sums sampleStdDev [failedClient, goodClient] 0 (by simp)⟩

/-- C4: if every `RunResults` of a non-empty list satisfies `Total == Successes + Failures`
(Go's `int64` addition), so does the `TotalResults` computed from the list. -/
theorem total_eq_successes_add_failures (stdDev : List F64 → F64)
    (results : List RunResults) (totalTime : Int) (hne : results ≠ [])
    (h : ∀ r ∈ results, r.Total = add64 r.Successes r.Failures) :
    ∃ t, calculateTotalResults stdDev results totalTime = some t ∧
      t.Total = add64 t.Successes t.Failures := by
  obtain ⟨t, ht, h1, h2, h3⟩ := calculateTotalResults_counts_of_ne stdDev results totalTime hne
  refine ⟨t, ht, ?_⟩
  rw [h1, h2, h3]
  unfold add64
  apply wrapInt64_congr
  have e := sum_total_emod results h
  have w1 := wrapInt64_emod (fieldSum RunResults.Successes results)
  have w2 := wrapInt64_emod (fieldSum RunResults.Failures results)
  omega

/-- C4, witness: one failed and one successful client. -/
theorem total_eq_successes_add_failures_witness :
    [failedClient, goodClient] ≠ [] ∧
    (∀ r ∈ [failedClient, goodClient], r.Total = add64 r.Successes r.Failures) ∧
    ∃ t, calculateTotalResults sampleStdDev [failedClient, goodClient] 0 = some t ∧
      t.Total = add64 t.Successes t.Failures :=
  ⟨by simp, by decide,
    total_eq_successes_add_failures sampleStdDev [failedClient, goodClient] 0 (by simp)
      (by decide)⟩

/-- C5: for a non-empty list whose entries have `Successes ≥ 0`, `Failures ≥ 0` and
`Total = Successes + Failures`, and whose sums stay below `2^63` (no `int64` overflow),
a positive aggregated `Total` gives `0 ≤ Ratio ≤ 1` in `float64` comparisons, where
`Ratio` is `float64(Successes) / float64(Total)` of the aggregated counters. -/
theorem ratio_between_zero_and_one (stdDev : List F64 → F64) (results : List RunResults)
    (totalTime : Int) (hne : results ≠ [])
    (hS : ∀ r ∈ results, 0 ≤ r.Successes) (hF : ∀ r ∈ results, 0 ≤ r.Failures)
    (hT : ∀ r ∈ results, r.Total = r.Successes + r.Failures)
    (hov : fieldSum RunResults.Total results < 2 ^ 63) :
    ∃ t, calculateTotalResults stdDev results totalTime = some t ∧
      t.Ratio = F64.div (F64.ofInt64 t.Successes) (F64.ofInt64 t.Total) ∧
      (0 < t.Total →
        F64.le (F64.ofInt64 0) t.Ratio = true ∧ F64.le t.Ratio (F64.ofInt64 1) = true) := by
  obtain ⟨t, ht, h1, _, h3⟩ := calculateTotalResults_counts_of_ne stdDev results totalTime hne
  have hr := calculateTotalResults_Ratio stdDev results totalTime t ht
  refine ⟨t, ht, hr, ?_⟩
  intro hpos
  have s0 := fieldSum_nonneg RunResults.Successes results hS
  have f0 := fieldSum_nonneg RunResults.Failures results hF
  have e := fieldSum_total_eq results hT
  rw [wrapInt64_of_range (by omega) (by omega)] at h1 h3
  obtain ⟨k, hk, hle⟩ := @ratio_bounds t.Successes t.Total (by omega) (by omega) (by omega)
    (by omega)
  have z : F64.ofInt64 0 = F64.fin 0 := by decide!
  have o : F64.ofInt64 1 = F64.fin unitsPerOne := by decide!
  rw [hr, hk, z, o]
  simp only [F64.le, decide_eq_true_eq]
  constructor
  · exact Int.ofNat_nonneg k
  · exact Int.ofNat_le.2 hle

/-- C5, witness: one failed and one successful client; the aggregated `Total` is `5`
and the `Ratio` `5 / 5` lies between `0` and `1`. -/
theorem ratio_between_zero_and_one_witness :
    [failedClient, goodClient] ≠ [] ∧
    (∀ r ∈ [failedClient, goodClient], 0 ≤ r.Successes) ∧
    (∀ r ∈ [failedClient, goodClient], 0 ≤ r.Failures) ∧
    (∀ r ∈ [failedClient, goodClient], r.Total = r.Successes + r.Failures) ∧
    fieldSum RunResults.Total [failedClient, goodClient] < 2 ^ 63 ∧
    ∃ t, calculateTotalResults sampleStdDev [failedClient, goodClient] 0 = some t ∧
      t.Total = 5 ∧
      F64.le (F64.ofInt64 0) t.Ratio = true ∧ F64.le t.Ratio (F64.ofInt64 1) = true := by
  refine ⟨by simp, by decide, by decide, by decide, by decide, ?_⟩
  obtain ⟨t, ht, _, h⟩ := ratio_between_zero_and_one sampleStdDev [failedClient, goodClient] 0
    (by simp) (by decide) (by decide) (by decide) (by decide)
  have hT : Option.map TotalResults.Total
      (calculateTotalResults sampleStdDev [failedClient, goodClient] 0) = some 5 := by decide!
  rw [ht, Option.map_some'] at hT
  have hT5 : t.Total = 5 := Option.some.inj hT
  exact ⟨t, ht, hT5, h (by omega)⟩

/-- C6, counterexample: a single client that ran for 2 s while all of its 5 publishes
failed.  The mean of the clients' `RunTime` values is `2`, the code returns
`AvgRunTime = 0`; so `AvgRunTime` is not the mean of the `RunTime` values of all
clients. -/
theorem avgRunTime_ne_mean_of_runTimes :
    (¬ ∀ (stdDev : List F64 → F64) (results : List RunResults) (totalTime : Int),
      results ≠ [] → ∃ t, calculateTotalResults stdDev results totalTime = some t ∧
        t.AvgRunTime = StatsMean (results.map RunResults.RunTime)) ∧
    Option.map TotalResults.AvgRunTime
      (calculateTotalResults sampleStdDev [noSuccessClient] 0) = some F64.zero ∧
    StatsMean ([noSuccessClient].map RunResults.RunTime) = F64.ofInt64 2 ∧
    F64.ofInt64 2 ≠ F64.zero := by
  have hcode : Option.map TotalResults.AvgRunTime
      (calculateTotalResults sampleStdDev [noSuccessClient] 0) = some F64.zero := by decide!
  have hspec : StatsMean ([noSuccessClient].map RunResults.RunTime) = F64.ofInt64 2 := by
    decide!
  have hne : F64.ofInt64 2 ≠ F64.zero := by decide!
  refine ⟨?_, hcode, hspec, hne⟩
  intro h
  obtain ⟨t, ht, ha⟩ := h sampleStdDev [noSuccessClient] 0 (by simp)
  rw [ht, Option.map_some', ha, hspec] at hcode
  exact hne (Option.some.inj hcode)

/-- C6, amended: for a non-empty list, `AvgRunTime` is the arithmetic mean (sum of the
slots divided by the number of clients) of an array with one slot per client, where
slot `i` holds client `i`'s `RunTime` when its `Successes > 0` and `0` otherwise.  When
every client has `Successes > 0` this is the mean of all `RunTime` values. -/
theorem avgRunTime_is_mean_of_slots (stdDev : List F64 → F64) (results : List RunResults)
    (totalTime : Int) (hne : results ≠ []) :
    ∃ t, calculateTotalResults stdDev results totalTime = some t ∧
      t.AvgRunTime = StatsMean (results.map (slotOf RunResults.RunTime)) ∧
      t.AvgRunTime = F64.div (StatsSum (results.map (slotOf RunResults.RunTime)))
        (F64.ofInt64 results.length) ∧
      ((∀ r ∈ results, r.Successes > 0) →
        t.AvgRunTime = StatsMean (results.map RunResults.RunTime)) := by
  obtain ⟨t, ht, h1, _, _⟩ := calculateTotalResults_means stdDev results totalTime hne
  refine ⟨t, ht, h1, ?_, ?_⟩
  · rw [h1]
    simp [StatsMean]
  · intro hall
    rw [h1]
    congr 1
    apply List.map_congr_left
    intro r hr
    simp [slotOf, hall r hr]

/-- C6, witness of the amended claim: a client without a success next to a successful
one. -/
theorem avgRunTime_is_mean_of_slots_witness :
    [noSuccessClient, goodClient] ≠ [] ∧
    ∃ t, calculateTotalResults sampleStdDev [noSuccessClient, goodClient] 0 = some t ∧
      t.AvgRunTime =
        StatsMean (([noSuccessClient, goodClient] : List RunResults).map
          (slotOf RunResults.RunTime)) ∧
      t.AvgRunTime =
        F64.div (StatsSum (([noSuccessClient, goodClient] : List RunResults).map
          (slotOf RunResults.RunTime)))
          (F64.ofInt64 ([noSuccessClient, goodClient] : List RunResults).length) ∧
      ((∀ r ∈ [noSuccessClient, goodClient], r.Successes > 0) →
        t.AvgRunTime =
          StatsMean (([noSuccessClient, goodClient] : List RunResults).map
            RunResults.RunTime)) :=
  ⟨by simp, avgRunTime_is_mean_of_slots sampleStdDev [noSuccessClient, goodClient] 0
    (by simp)⟩

/-- C7: for a non-empty list of `n` clients, `MsgTimeMeanAvg` is the arithmetic mean of
an `n`-slot array built from the clients' `MsgTimeMean` values only, slot `i` holding
client `i`'s `MsgTimeMean` when its `Successes > 0` and `0` otherwise; hence it is the
sum of `MsgTimeMean` over the clients with `Successes > 0`, divided by `n`; and whatever
the zero-success clients hold in `MsgTimeMean` (NaN included), the result is not NaN as
long as the successful clients' means are finite (for `n < 2^63`, as for any slice). -/
theorem msgTimeMeanAvg_is_mean_of_slots (stdDev : List F64 → F64)
    (results : List RunResults) (totalTime : Int) (hne : results ≠ []) :
    ∃ t, calculateTotalResults stdDev results totalTime = some t ∧
      t.MsgTimeMeanAvg = StatsMean (results.map (slotOf RunResults.MsgTimeMean)) ∧
      t.MsgTimeMeanAvg =
        F64.div
          (StatsSum ((results.filter (fun r => decide (r.Successes > 0))).map
            RunResults.MsgTimeMean))
          (F64.ofInt64 results.length) ∧
      ((results.length : Int) < 2 ^ 63 →
        (∀ r ∈ results, r.Successes > 0 → ∃ k, r.MsgTimeMean = F64.fin k) →
        t.MsgTimeMeanAvg ≠ F64.nan ∧ t.MsgTimeMeanAvg.isNaN = false) := by
  obtain ⟨t, ht, _, h2, _⟩ := calculateTotalResults_means stdDev results totalTime hne
  have hsum : t.MsgTimeMeanAvg =
      F64.div
        (StatsSum ((results.filter (fun r => decide (r.Successes > 0))).map
          RunResults.MsgTimeMean))
        (F64.ofInt64 results.length) := by
    rw [h2, StatsMean, statsSum_slots, List.length_map]
  refine ⟨t, ht, h2, hsum, ?_⟩
  intro hlen hfin
  have hpos : 1 ≤ (results.length : Int) := by
    cases results with
    | nil => exact absurd rfl hne
    | cons r rest => simp
  have hs : StatsSum ((results.filter (fun r => decide (r.Successes > 0))).map
      RunResults.MsgTimeMean) ≠ F64.nan := by
    apply foldl_add_ne_nan _ _ (by simp [F64.zero])
    intro x hx
    obtain ⟨r, hr, rfl⟩ := List.mem_map.1 hx
    obtain ⟨hmem, hdec⟩ := List.mem_filter.1 hr
    exact hfin r hmem (of_decide_eq_true hdec)
  have hnn : t.MsgTimeMeanAvg ≠ F64.nan := by
    rw [hsum]
    exact div_ofInt64_ne_nan _ _ hpos hlen hs
  refine ⟨hnn, ?_⟩
  cases hv : t.MsgTimeMeanAvg with
  | nan => exact absurd hv hnn
  | ninf => rfl
  | pinf => rfl
  | fin k => rfl

/-- C7, witness: a zero-success client whose `MsgTimeMean` is NaN next to a successful
client with mean `4`; the result is `(0 + 4) / 2 = 2`, not NaN. -/
theorem msgTimeMeanAvg_is_mean_of_slots_witness :
    [noSuccessClient, goodClient] ≠ [] ∧
    noSuccessClient.MsgTimeMean = F64.nan ∧
    ∃ t, calculateTotalResults sampleStdDev [noSuccessClient, goodClient] 0 = some t ∧
      t.MsgTimeMeanAvg =
        StatsMean (([noSuccessClient, goodClient] : List RunResults).map
          (slotOf RunResults.MsgTimeMean)) ∧
      t.MsgTimeMeanAvg =
        F64.div
          (StatsSum ((([noSuccessClient, goodClient] : List RunResults).filter
            (fun r => decide (r.Successes > 0))).map RunResults.MsgTimeMean))
          (F64.ofInt64 ([noSuccessClient, goodClient] : List RunResults).length) ∧
      t.MsgTimeMeanAvg = F64.ofInt64 2 ∧
      t.MsgTimeMeanAvg ≠ F64.nan ∧ t.MsgTimeMeanAvg.isNaN = false := by
  refine ⟨by simp, rfl, ?_⟩
  obtain ⟨t, ht, h1, h2, h3⟩ :=
    msgTimeMeanAvg_is_mean_of_slots sampleStdDev [noSuccessClient, goodClient] 0 (by simp)
  have hv : StatsMean (([noSuccessClient, goodClient] : List RunResults).map
      (slotOf RunResults.MsgTimeMean)) = F64.ofInt64 2 := by decide!
  have hfin : ∀ r ∈ [noSuccessClient, goodClient],
      r.Successes > 0 → ∃ k, r.MsgTimeMean = F64.fin k := by
    intro r hr hs
    rcases List.mem_cons.1 hr with rfl | hr
    · exact absurd hs (by decide)
    · rcases List.mem_cons.1 hr with rfl | hr
      · exact ⟨4 * unitsPerOne, by decide!⟩
      · simp at hr
  exact ⟨t, ht, h1, h2, h1.trans hv, h3 (by decide) hfin⟩

/-- C8: when no client of a non-empty list sent a message (all three counters are zero),
`calculateTotalResults` returns a result, its `Total` is `0`, and its `Ratio` is the NaN
of the floating-point division `0 / 0`. -/
theorem ratio_nan_when_nothing_sent (stdDev : List F64 → F64) (results : List RunResults)
    (totalTime : Int) (hne : results ≠ [])
    (h : ∀ r ∈ results, r.Successes = 0 ∧ r.Failures = 0 ∧ r.Total = 0) :
    ∃ t, calculateTotalResults stdDev results totalTime = some t ∧
      t.Total = 0 ∧ t.Ratio = F64.nan ∧ t.Ratio.isNaN = true := by
  obtain ⟨t, ht, h1, _, h3⟩ := calculateTotalResults_counts_of_ne stdDev results totalTime hne
  have s0 : fieldSum RunResults.Successes results = 0 :=
    fieldSum_eq_zero _ _ (fun r hr => (h r hr).1)
  have t0 : fieldSum RunResults.Total results = 0 :=
    fieldSum_eq_zero _ _ (fun r hr => (h r hr).2.2)
  have w0 : wrapInt64 0 = 0 := by decide
  rw [s0, w0] at h1
  rw [t0, w0] at h3
  have hr := calculateTotalResults_Ratio stdDev results totalTime t ht
  rw [h1, h3] at hr
  have hdiv : F64.div (F64.ofInt64 0) (F64.ofInt64 0) = F64.nan := by decide!
  rw [hdiv] at hr
  exact ⟨t, ht, h3, hr, by rw [hr]; rfl⟩

/-- C8, witness: two clients started with `count = 0`. -/
theorem ratio_nan_when_nothing_sent_witness :
    [idleClient, idleClient] ≠ [] ∧
    (∀ r ∈ [idleClient, idleClient], r.Successes = 0 ∧ r.Failures = 0 ∧ r.Total = 0) ∧
    ∃ t, calculateTotalResults sampleStdDev [idleClient, idleClient] 0 = some t ∧
      t.Total = 0 ∧ t.Ratio = F64.nan ∧ t.Ratio.isNaN = true :=
  ⟨by simp, by decide,
    ratio_nan_when_nothing_sent sampleStdDev [idleClient, idleClient] 0 (by simp)
      (by decide)⟩

/-- C9, the code at the failing input: the same two results in the two arrival orders.
With the failed client first the result has `MsgTimeMin = 0`, with the successful client
first it has `MsgTimeMin = 3`.  The first part is what does hold: for every permutation
of a non-empty list, `Successes`, `Failures`, `Total` and `MsgTimeMax` are the same. -/
theorem msgTimeMin_depends_on_arrival_order (stdDev : List F64 → F64) :
    (∀ (l1 l2 : List RunResults) (totalTime : Int), List.Perm l1 l2 → l1 ≠ [] →
      ∃ t1 t2, calculateTotalResults stdDev l1 totalTime = some t1 ∧
        calculateTotalResults stdDev l2 totalTime = some t2 ∧
        t1.Successes = t2.Successes ∧ t1.Failures = t2.Failures ∧ t1.Total = t2.Total ∧
        t1.MsgTimeMax = t2.MsgTimeMax) ∧
    List.Perm [failedClient, goodClient] [goodClient, failedClient] ∧
    ∃ t1 t2, calculateTotalResults stdDev [failedClient, goodClient] 0 = some t1 ∧
      calculateTotalResults stdDev [goodClient, failedClient] 0 = some t2 ∧
      t1.MsgTimeMin = F64.zero ∧ t2.MsgTimeMin = F64.ofInt64 3 ∧
      t1.MsgTimeMin ≠ t2.MsgTimeMin := by
  obtain ⟨t1, ht1, _, hmin1⟩ :=
    calculateTotalResults_extrema stdDev failedClient [goodClient] 0
  obtain ⟨t2, ht2, _, hmin2⟩ :=
    calculateTotalResults_extrema stdDev goodClient [failedClient] 0
  refine ⟨fun l1 l2 totalTime h hne => calculateTotalResults_perm stdDev l1 l2 totalTime h hne,
    List.Perm.swap _ _ _, t1, t2, ht1, ht2, ?_⟩
  rw [hmin1, hmin2]
  decide!

/-- C10: `calculateTotalResults` panics (returns `none`) exactly on the empty list: for
every list of length `≥ 1` with no nil entry it returns a `TotalResults` (the four indexed
writes of lines 148-151 stay in range, although such a write does panic past the end of
its array), and with a nil entry it panics too.  `main` calls it only with a list of
length `clients ≥ 1` without nil entry, so that call never panics: `clients < 1` is
exactly the `fatal` end, before any worker is started or any result is collected; a run
with `clients ≥ 1` can also end blocked on a receive that never returns, or in the nil
dereference of line 115, and it does complete when every receive delivers a result. -/
theorem panics_iff_empty_and_main_never_empty :
    (∀ (stdDev : List F64 → F64) (results : List RunResults) (totalTime : Int),
      calculateTotalResults stdDev results totalTime = none ↔ results = []) ∧
    (∀ (stdDev : List F64 → F64) (results : List RunResults) (totalTime : Int),
      1 ≤ results.length → ∃ t, calculateTotalResults stdDev results totalTime = some t) ∧
    (∀ (s : LoopState) (i : Nat) (r : RunResults),
      r.Successes > 0 → s.msgTimeMeans.length ≤ i → loopBody s i r = none) ∧
    (∀ (stdDev : List F64 → F64) (ptrs : List (Option RunResults)) (totalTime : Int),
      (∀ p ∈ ptrs, p ≠ none) →
      (calculateTotalResultsPtr stdDev ptrs totalTime = none ↔ ptrs = [])) ∧
    (∀ (stdDev : List F64 → F64) (ptrs : List (Option RunResults)) (totalTime : Int),
      none ∈ ptrs → calculateTotalResultsPtr stdDev ptrs totalTime = none) ∧
    (∀ (stdDev : List F64 → F64) (clients : Int) (resCh : Nat → Received)
      (totalTime : Int),
      (main stdDev clients resCh totalTime = Outcome.fatal ↔ clients < 1) ∧
      (∀ started results,
        main stdDev clients resCh totalTime ≠ Outcome.panickedInTotals started results) ∧
      (∀ started results totals,
        main stdDev clients resCh totalTime = Outcome.completed started results totals →
        1 ≤ clients ∧ (results.length : Int) = clients ∧ started = results.length ∧
          (∀ p ∈ results, p ≠ none) ∧
          calculateTotalResultsPtr stdDev results totalTime = some totals) ∧
      (∀ started j, main stdDev clients resCh totalTime = Outcome.panicked started j →
        resCh j = Received.pointer none) ∧
      (∀ started j, main stdDev clients resCh totalTime = Outcome.blocked started j →
        resCh j = Received.never) ∧
      (1 ≤ clients → (∀ j, j < clients.toNat → ∃ r, resCh j = Received.pointer (some r)) →
        ∃ results totals, main stdDev clients resCh totalTime =
          Outcome.completed clients.toNat results totals)) := by
  refine ⟨calculateTotalResults_eq_none_iff, ?_, loopBody_eq_none_of_le,
    calculateTotalResultsPtr_eq_none_iff, ?_, main_spec⟩
  · intro stdDev results totalTime hlen
    cases results with
    | nil => simp at hlen
    | cons r rest =>
      obtain ⟨s', _, hc⟩ := calculateTotalResults_cons stdDev r rest totalTime
      exact ⟨_, hc⟩
  · intro stdDev ptrs totalTime hnil
    simp only [calculateTotalResultsPtr, derefAll_eq_none_of_nil ptrs hnil]

end MqttBench
